import Mathlib

/-!
# Verification of `pareto_efficient.py`

Shallow embedding of the Pareto-efficiency checker from the repository
`EconomicAlgorithmsHW5` (file `src/pareto_efficient.py`), and proofs of the
frozen claims about it.

Modelling conventions:

* Python floats are idealised as non-negative rationals (`NNRat`); the spec's
  §6 precondition restricts all matrix entries to finite non-negative values.
* A value that Python's code computes as a possibly-infinite float ratio is
  represented in `WithTop NNRat`, with `⊤` playing the role of `float('inf')`
  (the `min(..., default=float('inf'))` sentinel).
* Python exceptions (the `ZeroDivisionError` raised by `/` when a denominator
  is zero, and the `ValueError` raised by `math.log10(0)`) are modelled by
  `Option`: `none` means the call raises, `some x` means it returns `x`.
* Edge weights: the source stores `math.log10(ratio)` on each edge.  `log10`
  is a strictly monotone bijection from `(0, ∞]` onto `(-∞, ∞]` with
  `log10 (x*y) = log10 x + log10 y`, so the graph here stores the positive
  ratio itself and the additive log-space notions (sum of weights, weight
  `< 0`) are mirrored multiplicatively (product of ratios, product `< 1`).
  The function `elog10` below makes the log-space reading explicit, and
  bridging lemmas prove that the two readings agree.
* List indexing out of range is idealised with default values (`0`, `[]`);
  the claims only concern valid indices into rectangular matrices.
* `has_negative_cycle` in the source delegates to
  `networkx.find_negative_cycle(graph, 0)`, whose code is not part of this
  repository; it is modelled from the spec (§4.3): Bellman–Ford relaxation
  from source vertex `0`, `n-1` full passes over the edge list plus one
  detection pass.  The spec's optional floating-point epsilon is dropped
  because arithmetic here is exact.
-/

/-- Entry of a matrix row, Python `row[k]`; out-of-range reads (which Python
would reject with `IndexError`) default to `0`. -/
def entry : List NNRat → ℕ → NNRat
  | [], _ => 0
  | x :: _, 0 => x
  | _ :: r, k + 1 => entry r k

/-- Row of a matrix, Python `M[i]`; out-of-range reads default to `[]`. -/
def nthRow : List (List NNRat) → ℕ → List NNRat
  | [], _ => []
  | r :: _, 0 => r
  | _ :: M, k + 1 => nthRow M k

/-- The good indices `k` kept by the comprehension filter in
`calculate_min_ratio`: `k` ranges over `range(len(allocation[i]))` and both
`allocation[i][k]` and `allocation[j][k]` are non-zero. -/
def qualIdx (ai aj : List NNRat) : List ℕ :=
  (List.range ai.length).filter (fun k => entry ai k != 0 && entry aj k != 0)

/-- The candidate ratio
`(valuations[i][k] * allocation[i][k]) / (valuations[j][k] * allocation[j][k])`
from the comprehension in `calculate_min_ratio` (division by zero is handled
separately, in `minRatioRows`). -/
def cand (vi vj ai aj : List NNRat) (k : ℕ) : NNRat :=
  (entry vi k * entry ai k) / (entry vj k * entry aj k)

/-- Fold computing the minimum of a list of extended ratios with default `⊤`:
Python's `min(non_zero_ratios, default=float('inf'))`. -/
def minFold (l : List (WithTop NNRat)) : WithTop NNRat :=
  l.foldr min ⊤

/-- Row-level core of `calculate_min_ratio`, operating on the four rows the
source actually reads.  Python raises `ZeroDivisionError` while building the
comprehension if any kept index has a zero denominator: that is the `none`
branch.  Otherwise the minimum candidate is returned (`⊤` when no index
qualifies). -/
def minRatioRows (vi vj ai aj : List NNRat) : Option (WithTop NNRat) :=
  if (qualIdx ai aj).any (fun k => entry vj k * entry aj k == 0) then none
  else some (minFold ((qualIdx ai aj).map (fun k => ((cand vi vj ai aj k : NNRat) : WithTop NNRat))))

/-- Source function `calculate_min_ratio(i, j, valuations, allocation)`:
minimum over goods `k` held by both `i` and `j` of the candidate ratio;
`none` models the `ZeroDivisionError` raised when an evaluated denominator
`valuations[j][k] * allocation[j][k]` is zero. -/
def calculate_min_ratio (i j : ℕ) (valuations allocation : List (List NNRat)) :
    Option (WithTop NNRat) :=
  minRatioRows (nthRow valuations i) (nthRow valuations j)
    (nthRow allocation i) (nthRow allocation j)

/-- The ordered pairs `(i, j)`, `i ≠ j`, in the order of the nested loops
`for i in range(n): for j in range(n): if i != j:` of `build_graph`. -/
def edgePairs (n : ℕ) : List (ℕ × ℕ) :=
  (List.range n).flatMap (fun i => ((List.range n).filter (fun j => i != j)).map (fun j => (i, j)))

/-- The directed graph built by `build_graph`: vertex set `{0, …, n-1}` and an
explicit edge list in insertion order.  Each edge stores the positive ratio
`calculate_min_ratio(i, j, …)` whose `log10` is the weight the source stores
(see the header comment: log-space is mirrored multiplicatively). -/
structure Graph where
  n : ℕ
  edges : List (ℕ × ℕ × WithTop NNRat)
deriving DecidableEq

/-- One edge of `build_graph`'s loop body: compute the ratio (propagating the
`ZeroDivisionError` case) and apply `math.log10`, which raises `ValueError`
on a zero ratio (`none`) — Python's `math.log10(0.0)` is a domain error, it
does not return `-inf`.  `math.log10(float('inf'))` is `inf` (`⊤` is kept). -/
def edgeOf (valuations allocation : List (List NNRat)) (p : ℕ × ℕ) :
    Option (ℕ × ℕ × WithTop NNRat) :=
  match calculate_min_ratio p.1 p.2 valuations allocation with
  | none => none
  | some r => if r = 0 then none else some (p.1, p.2, r)

/-- Sequencing of the loop body over the pair list: the first raised exception
aborts `build_graph` (modelled by `none`). -/
def buildEdges (valuations allocation : List (List NNRat)) :
    List (ℕ × ℕ) → Option (List (ℕ × ℕ × WithTop NNRat))
  | [] => some []
  | p :: ps =>
    match edgeOf valuations allocation p, buildEdges valuations allocation ps with
    | some e, some es => some (e :: es)
    | _, _ => none

/-- Source function `build_graph(valuations, allocation)`: a complete directed
graph on `range(len(valuations))` with one weighted edge per ordered pair
`i ≠ j`; `none` models an exception escaping the loop. -/
def build_graph (valuations allocation : List (List NNRat)) : Option Graph :=
  match buildEdges valuations allocation (edgePairs valuations.length) with
  | none => none
  | some es => some ⟨valuations.length, es⟩

/-- Distance-array read, `dist[v]`; the initial value for untouched vertices
is `+∞`, i.e. multiplicatively `⊤` (the additive `0` at the source is the
multiplicative `1`). -/
def dget : List (WithTop NNRat) → ℕ → WithTop NNRat
  | [], _ => ⊤
  | x :: _, 0 => x
  | _ :: d, k + 1 => dget d k

/-- Distance-array write, `dist[v] = x` (no-op out of range). -/
def dset : List (WithTop NNRat) → ℕ → WithTop NNRat → List (WithTop NNRat)
  | [], _, _ => []
  | _ :: d, 0, x => x :: d
  | y :: d, k + 1, x => y :: dset d k x

/-- One Bellman–Ford relaxation of edge `(u, v, w)` (spec §4.3 step 2,
multiplicative mirror): if `dist[u] + w < dist[v]` then update `dist[v]`. -/
def relaxEdge (d : List (WithTop NNRat)) (e : ℕ × ℕ × WithTop NNRat) :
    List (WithTop NNRat) :=
  if dget d e.1 * e.2.2 < dget d e.2.1 then dset d e.2.1 (dget d e.1 * e.2.2) else d

/-- One full relaxation pass over the edge list. -/
def relaxPass (es : List (ℕ × ℕ × WithTop NNRat)) (d : List (WithTop NNRat)) :
    List (WithTop NNRat) :=
  es.foldl relaxEdge d

/-- Iterate `k` successive full passes. -/
def passes (es : List (ℕ × ℕ × WithTop NNRat)) : ℕ → List (WithTop NNRat) → List (WithTop NNRat)
  | 0, d => d
  | k + 1, d => passes es k (relaxPass es d)

/-- Initial distances (spec §4.3 step 1): `dist[0] = 0` (multiplicatively `1`),
`dist[v] = +∞` otherwise. -/
def initDist (n : ℕ) : List (WithTop NNRat) :=
  (List.range n).map (fun v => if v = 0 then (1 : WithTop NNRat) else ⊤)

/-- Distances after the `n - 1` Bellman–Ford passes from source `0`. -/
def bfDist (G : Graph) : List (WithTop NNRat) :=
  passes G.edges (G.n - 1) (initDist G.n)

/-- Source function `has_negative_cycle(graph)` — modelled from the spec (§4.3), since the
source delegates to `networkx.find_negative_cycle(graph, 0)` whose code is
not in this repository: after `n − 1` relaxation passes from vertex `0`, one
more pass looks for a still-improvable edge; any strict improvement certifies
a negative cycle reachable from the source. -/
def has_negative_cycle (G : Graph) : Bool :=
  let d := bfDist G
  G.edges.any (fun e => dget d e.1 * e.2.2 < dget d e.2.1)

/-- Source function `is_pareto_efficient(valuations, allocation)`: build the
exchange graph and negate the negative-cycle test.  `none` models an
exception escaping the call. -/
def is_pareto_efficient (valuations allocation : List (List NNRat)) : Option Bool :=
  match build_graph valuations allocation with
  | none => none
  | some G => some (!has_negative_cycle G)

/-! ## Basic mechanics of the distance array -/

theorem length_dset : ∀ (d : List (WithTop NNRat)) (k : ℕ) (x), (dset d k x).length = d.length
  | [], _, _ => rfl
  | _ :: d, 0, _ => rfl
  | _ :: d, k + 1, x => by simpa [dset] using length_dset d k x

theorem dget_dset_self : ∀ (d : List (WithTop NNRat)) (k : ℕ) (x), k < d.length →
    dget (dset d k x) k = x
  | [], k, _, h => absurd h (by simp)
  | _ :: d, 0, _, _ => rfl
  | _ :: d, k + 1, x, h => dget_dset_self d k x (Nat.lt_of_succ_lt_succ h)

theorem dget_dset_ne : ∀ (d : List (WithTop NNRat)) (k l : ℕ) (x), k ≠ l →
    dget (dset d k x) l = dget d l
  | [], _, _, _, _ => rfl
  | _ :: d, 0, 0, _, h => absurd rfl h
  | _ :: d, 0, _ + 1, _, _ => rfl
  | _ :: d, _ + 1, 0, _, _ => rfl
  | _ :: d, k + 1, l + 1, x, h => dget_dset_ne d k l x (fun hkl => h (by omega))

theorem dget_of_length_le : ∀ (d : List (WithTop NNRat)) (k : ℕ), d.length ≤ k → dget d k = ⊤
  | [], _, _ => rfl
  | _ :: d, 0, h => absurd h (by simp)
  | _ :: d, k + 1, h => dget_of_length_le d k (Nat.le_of_succ_le_succ h)

/-! ## Basic facts about the minimum fold -/

theorem minFold_le {l : List (WithTop NNRat)} {x : WithTop NNRat} (h : x ∈ l) :
    minFold l ≤ x := by
  induction l with
  | nil => cases h
  | cons y ys ih =>
    rcases List.mem_cons.mp h with rfl | h
    · exact min_le_left _ _
    · exact le_trans (min_le_right _ _) (ih h)

theorem minFold_cons (y : WithTop NNRat) (ys : List (WithTop NNRat)) :
    minFold (y :: ys) = min y (minFold ys) := rfl

theorem minFold_eq_top_or_mem (l : List (WithTop NNRat)) :
    minFold l = ⊤ ∨ minFold l ∈ l := by
  induction l with
  | nil => exact Or.inl rfl
  | cons y ys ih =>
    rw [minFold_cons]
    rcases min_choice y (minFold ys) with h | h
    · rw [h]; exact Or.inr (List.mem_cons_self _ _)
    · rw [h]
      rcases ih with h2 | h2
      · exact Or.inl h2
      · exact Or.inr (List.mem_cons_of_mem _ h2)

theorem minFold_nil : minFold [] = ⊤ := rfl

/-! ## The pair list of `build_graph`'s loops -/

theorem mem_edgePairs {n : ℕ} {p : ℕ × ℕ} :
    p ∈ edgePairs n ↔ p.1 < n ∧ p.2 < n ∧ p.1 ≠ p.2 := by
  obtain ⟨i, j⟩ := p
  simp only [edgePairs, List.mem_flatMap, List.mem_map, List.mem_filter, List.mem_range]
  constructor
  · rintro ⟨i', hi', ⟨j', ⟨hj', hne⟩, hp⟩⟩
    obtain ⟨rfl, rfl⟩ := Prod.mk.injEq .. ▸ hp
    exact ⟨hi', hj', by simpa [bne_iff_ne] using hne⟩
  · rintro ⟨hi, hj, hne⟩
    exact ⟨i, hi, j, ⟨hj, by simpa [bne_iff_ne] using hne⟩, rfl⟩

theorem nodup_pairs_aux (outer : List ℕ) (f : ℕ → List ℕ) (houter : outer.Nodup)
    (hf : ∀ i, (f i).Nodup) :
    (outer.flatMap (fun i => (f i).map (fun j => ((i, j) : ℕ × ℕ)))).Nodup := by
  induction outer with
  | nil => exact List.nodup_nil
  | cons i rest ih =>
    rw [List.flatMap_cons, List.nodup_append]
    obtain ⟨hnotmem, hrest⟩ := List.nodup_cons.mp houter
    refine ⟨(hf i).map (fun a b hab => (Prod.mk.injEq .. ▸ hab).2), ih hrest, ?_⟩
    intro p hp hp'
    obtain ⟨j, _, rfl⟩ := List.mem_map.mp hp
    obtain ⟨i', hi', hmem⟩ := List.mem_flatMap.mp hp'
    obtain ⟨j', _, hj'⟩ := List.mem_map.mp hmem
    obtain ⟨h1, _⟩ := Prod.mk.injEq .. ▸ hj'
    exact hnotmem (h1 ▸ hi')

theorem nodup_edgePairs (n : ℕ) : (edgePairs n).Nodup :=
  nodup_pairs_aux _ _ (List.nodup_range n) (fun _ => (List.nodup_range n).filter _)

/-! ## Characterisation of `build_graph` -/

/-- Key (source, target) of an edge record. -/
def edgeKey (e : ℕ × ℕ × WithTop NNRat) : ℕ × ℕ := (e.1, e.2.1)

/-- Well-formedness of a graph value: edges live on the vertex set, weights
are non-zero (a zero ratio would have raised in `math.log10`), and there is
at most one edge per ordered pair.  `build_graph` only produces such graphs. -/
def Graph.WF (G : Graph) : Prop :=
  (∀ e ∈ G.edges, e.1 < G.n ∧ e.2.1 < G.n ∧ e.2.2 ≠ 0) ∧ (G.edges.map edgeKey).Nodup

theorem edgeOf_eq_some_iff {v a : List (List NNRat)} {p : ℕ × ℕ}
    {e : ℕ × ℕ × WithTop NNRat} :
    edgeOf v a p = some e ↔
      ∃ r, calculate_min_ratio p.1 p.2 v a = some r ∧ r ≠ 0 ∧ e = (p.1, p.2, r) := by
  cases hc : calculate_min_ratio p.1 p.2 v a with
  | none => simp [edgeOf, hc]
  | some r =>
    by_cases hr : r = 0
    · subst hr
      simp [edgeOf, hc]
    · simp only [edgeOf, hc, if_neg hr]
      constructor
      · intro h
        obtain rfl := Option.some.inj h
        exact ⟨r, rfl, hr, rfl⟩
      · rintro ⟨r', hr', _, rfl⟩
        obtain rfl : r = r' := Option.some.inj hr'
        rfl

theorem buildEdges_eq_some_iff {v a : List (List NNRat)} :
    ∀ {ps : List (ℕ × ℕ)} {es : List (ℕ × ℕ × WithTop NNRat)},
      buildEdges v a ps = some es ↔ List.Forall₂ (fun p e => edgeOf v a p = some e) ps es := by
  intro ps
  induction ps with
  | nil =>
    intro es
    constructor
    · intro h; obtain rfl : ([] : List (ℕ × ℕ × WithTop NNRat)) = es := by simpa [buildEdges] using h
      exact List.Forall₂.nil
    · rintro h; cases h; rfl
  | cons p ps ih =>
    intro es
    constructor
    · intro h
      unfold buildEdges at h
      cases he : edgeOf v a p with
      | none => rw [he] at h; exact absurd h (by simp)
      | some e =>
        rw [he] at h
        cases hes : buildEdges v a ps with
        | none => rw [hes] at h; exact absurd h (by simp)
        | some es' =>
          rw [hes] at h
          obtain rfl : e :: es' = es := by simpa using h
          exact List.Forall₂.cons he (ih.mp hes)
    · intro h
      cases h with
      | cons he hes => unfold buildEdges; rw [he, ih.mpr hes]

theorem forall₂_mem_right {α β : Type*} {R : α → β → Prop} :
    ∀ {ps : List α} {es : List β}, List.Forall₂ R ps es → ∀ e ∈ es, ∃ p ∈ ps, R p e := by
  intro ps es h
  induction h with
  | nil => intro e he; cases he
  | cons hR _ ih =>
    intro e he
    rcases List.mem_cons.mp he with rfl | he
    · exact ⟨_, List.mem_cons_self _ _, hR⟩
    · obtain ⟨p, hp, hpe⟩ := ih e he
      exact ⟨p, List.mem_cons_of_mem _ hp, hpe⟩

theorem forall₂_mem_left {α β : Type*} {R : α → β → Prop} :
    ∀ {ps : List α} {es : List β}, List.Forall₂ R ps es → ∀ p ∈ ps, ∃ e ∈ es, R p e := by
  intro ps es h
  induction h with
  | nil => intro p hp; cases hp
  | cons hR _ ih =>
    intro p hp
    rcases List.mem_cons.mp hp with rfl | hp
    · exact ⟨_, List.mem_cons_self _ _, hR⟩
    · obtain ⟨e, he, hpe⟩ := ih p hp
      exact ⟨e, List.mem_cons_of_mem _ he, hpe⟩

theorem builtEdges_keys {v a : List (List NNRat)} :
    ∀ {ps : List (ℕ × ℕ)} {es : List (ℕ × ℕ × WithTop NNRat)},
      List.Forall₂ (fun p e => edgeOf v a p = some e) ps es → es.map edgeKey = ps := by
  intro ps es h
  induction h with
  | nil => rfl
  | cons hR _ ih =>
    obtain ⟨r, _, _, rfl⟩ := edgeOf_eq_some_iff.mp hR
    simpa [edgeKey] using ih

theorem build_graph_some_parts {v a : List (List NNRat)} {G : Graph}
    (h : build_graph v a = some G) :
    G.n = v.length ∧
      List.Forall₂ (fun p e => edgeOf v a p = some e) (edgePairs v.length) G.edges := by
  unfold build_graph at h
  cases hb : buildEdges v a (edgePairs v.length) with
  | none => rw [hb] at h; exact absurd h (by simp)
  | some es =>
    rw [hb] at h
    obtain rfl : ({ n := v.length, edges := es } : Graph) = G := by simpa using h
    exact ⟨rfl, buildEdges_eq_some_iff.mp hb⟩

theorem built_mem_iff {v a : List (List NNRat)} {G : Graph} (h : build_graph v a = some G)
    {i j : ℕ} {r : WithTop NNRat} :
    (i, j, r) ∈ G.edges ↔
      (i < v.length ∧ j < v.length ∧ i ≠ j) ∧ calculate_min_ratio i j v a = some r ∧ r ≠ 0 := by
  obtain ⟨hn, hf⟩ := build_graph_some_parts h
  constructor
  · intro hmem
    obtain ⟨p, hp, hpe⟩ := forall₂_mem_right hf _ hmem
    obtain ⟨r', hr', hne, heq⟩ := edgeOf_eq_some_iff.mp hpe
    obtain ⟨rfl, rfl, rfl⟩ : i = p.1 ∧ j = p.2 ∧ r = r' := by
      obtain ⟨p1, p2⟩ := p
      simpa using congrArg (fun e => (e.1, e.2.1, e.2.2)) heq
    exact ⟨mem_edgePairs.mp hp, hr', hne⟩
  · rintro ⟨hbounds, hr, hne⟩
    obtain ⟨e, he, hpe⟩ := forall₂_mem_left hf (i, j) (mem_edgePairs.mpr hbounds)
    obtain ⟨r', hr', _, rfl⟩ := edgeOf_eq_some_iff.mp hpe
    obtain rfl : r = r' := by rw [hr] at hr'; simpa using hr'
    exact he

theorem built_WF {v a : List (List NNRat)} {G : Graph} (h : build_graph v a = some G) :
    G.WF := by
  obtain ⟨hn, hf⟩ := build_graph_some_parts h
  constructor
  · intro e he
    obtain ⟨p, hp, hpe⟩ := forall₂_mem_right hf _ he
    obtain ⟨r, _, hne, rfl⟩ := edgeOf_eq_some_iff.mp hpe
    obtain ⟨h1, h2, _⟩ := mem_edgePairs.mp hp
    exact ⟨hn ▸ h1, hn ▸ h2, hne⟩
  · rw [builtEdges_keys hf]
    exact nodup_edgePairs _
/-! ## Edge lookup and well-formedness consequences -/

/-- Weight (stored multiplicatively, see header) of the edge `u → v`; `⊤` when
no such edge exists — for the complete built graph the only missing pairs are
`u = v` and out-of-range vertices, and a `⊤` weight never influences
relaxation or cycle negativity. -/
def edgeW (G : Graph) (u v : ℕ) : WithTop NNRat :=
  match G.edges.find? (fun e => e.1 == u && e.2.1 == v) with
  | some e => e.2.2
  | none => ⊤

theorem edgeW_ne_top_mem {G : Graph} {u v : ℕ} (h : edgeW G u v ≠ ⊤) :
    (u, v, edgeW G u v) ∈ G.edges := by
  unfold edgeW at h ⊢
  cases hf : G.edges.find? (fun e => e.1 == u && e.2.1 == v) with
  | none => rw [hf] at h; exact absurd rfl h
  | some e =>
    have hmem := List.mem_of_find?_eq_some hf
    have hpred := List.find?_some hf
    obtain ⟨h1, h2⟩ := Bool.and_eq_true_iff.mp hpred
    have hu : e.1 = u := by simpa using h1
    have hv : e.2.1 = v := by simpa using h2
    show (u, v, e.2.2) ∈ G.edges
    have : (u, v, e.2.2) = e := by
      obtain ⟨e1, e21, e22⟩ := e
      simp_all
    rwa [this]

theorem nodup_keys_unique :
    ∀ {es : List (ℕ × ℕ × WithTop NNRat)}, (es.map edgeKey).Nodup →
      ∀ {e e'}, e ∈ es → e' ∈ es → edgeKey e = edgeKey e' → e = e' := by
  intro es
  induction es with
  | nil => intro _ e e' he; cases he
  | cons x xs ih =>
    intro hnd e e' he he' hkey
    rw [List.map_cons, List.nodup_cons] at hnd
    obtain ⟨hx, hxs⟩ := hnd
    rcases List.mem_cons.mp he with he0 | he1
    · rcases List.mem_cons.mp he' with he0' | he1'
      · rw [he0, he0']
      · subst he0
        refine absurd ?_ hx
        rw [hkey]
        exact List.mem_map_of_mem edgeKey he1'
    · rcases List.mem_cons.mp he' with he0' | he1'
      · subst he0'
        refine absurd ?_ hx
        rw [← hkey]
        exact List.mem_map_of_mem edgeKey he1
      · exact ih hxs he1 he1' hkey

theorem edgeW_eq_of_mem {G : Graph} (hWF : G.WF) {u v : ℕ} {w : WithTop NNRat}
    (h : (u, v, w) ∈ G.edges) : edgeW G u v = w := by
  unfold edgeW
  cases hf : G.edges.find? (fun e => e.1 == u && e.2.1 == v) with
  | none =>
    have := List.find?_eq_none.mp hf _ h
    simp at this
  | some e =>
    have hmem := List.mem_of_find?_eq_some hf
    have hpred := List.find?_some hf
    obtain ⟨h1, h2⟩ := Bool.and_eq_true_iff.mp hpred
    have hu : e.1 = u := by simpa using h1
    have hv : e.2.1 = v := by simpa using h2
    have hkey : edgeKey e = edgeKey (u, v, w) := by simp [edgeKey, hu, hv]
    have heq := nodup_keys_unique hWF.2 hmem h hkey
    show e.2.2 = w
    rw [heq]

theorem edgeW_ne_zero {G : Graph} (hWF : G.WF) (u v : ℕ) : edgeW G u v ≠ 0 := by
  unfold edgeW
  cases hf : G.edges.find? (fun e => e.1 == u && e.2.1 == v) with
  | none => exact (by simp : (⊤ : WithTop NNRat) ≠ 0)
  | some e => exact (hWF.1 e (List.mem_of_find?_eq_some hf)).2.2

theorem edgeW_lt_bound {G : Graph} (hWF : G.WF) {u v : ℕ} (h : edgeW G u v ≠ ⊤) :
    u < G.n ∧ v < G.n :=
  let hm := hWF.1 _ (edgeW_ne_top_mem h)
  ⟨hm.1, hm.2.1⟩

/-! ## Walks in the graph -/

/-- Endpoint of the walk that starts at `u` and then steps through `vs`. -/
def walkEnd : ℕ → List ℕ → ℕ
  | u, [] => u
  | _, v :: vs => walkEnd v vs

/-- Multiplicative weight of a walk: product of the edge ratios along it
(`1`, i.e. additive log-weight `0`, for the empty walk). -/
def walkW (G : Graph) : ℕ → List ℕ → WithTop NNRat
  | _, [] => 1
  | u, v :: vs => edgeW G u v * walkW G v vs

theorem walkEnd_append (u : ℕ) (vs ws : List ℕ) :
    walkEnd u (vs ++ ws) = walkEnd (walkEnd u vs) ws := by
  induction vs generalizing u with
  | nil => rfl
  | cons v vs ih => simpa [walkEnd] using ih v

theorem walkW_append (G : Graph) (u : ℕ) (vs ws : List ℕ) :
    walkW G u (vs ++ ws) = walkW G u vs * walkW G (walkEnd u vs) ws := by
  induction vs generalizing u with
  | nil => simp [walkW, walkEnd]
  | cons v vs ih => simp [walkW, walkEnd, ih v, mul_assoc]

theorem walkW_ne_zero {G : Graph} (hWF : G.WF) (u : ℕ) (vs : List ℕ) :
    walkW G u vs ≠ 0 := by
  induction vs generalizing u with
  | nil => exact one_ne_zero
  | cons v vs ih => exact mul_ne_zero (edgeW_ne_zero hWF u v) (ih v)

theorem walkW_cons_ne_top {G : Graph} (hWF : G.WF) {u v : ℕ} {vs : List ℕ}
    (h : walkW G u (v :: vs) ≠ ⊤) : edgeW G u v ≠ ⊤ ∧ walkW G v vs ≠ ⊤ := by
  constructor
  · intro htop
    exact h (by rw [walkW, htop, WithTop.mul_eq_top_iff]; exact Or.inr ⟨rfl, walkW_ne_zero hWF v vs⟩)
  · intro htop
    exact h (by rw [walkW, htop, WithTop.mul_eq_top_iff]; exact Or.inl ⟨edgeW_ne_zero hWF u v, rfl⟩)

theorem walkW_append_ne_top {G : Graph} (hWF : G.WF) {u : ℕ} {vs ws : List ℕ}
    (h : walkW G u (vs ++ ws) ≠ ⊤) :
    walkW G u vs ≠ ⊤ ∧ walkW G (walkEnd u vs) ws ≠ ⊤ := by
  rw [walkW_append] at h
  constructor
  · intro htop
    exact h (by rw [htop, WithTop.mul_eq_top_iff]
                exact Or.inr ⟨rfl, walkW_ne_zero hWF _ _⟩)
  · intro htop
    exact h (by rw [htop, WithTop.mul_eq_top_iff]
                exact Or.inl ⟨walkW_ne_zero hWF _ _, rfl⟩)

theorem walk_vertices_lt {G : Graph} (hWF : G.WF) :
    ∀ (vs : List ℕ) (u : ℕ), walkW G u vs ≠ ⊤ → ∀ x ∈ vs, x < G.n := by
  intro vs
  induction vs with
  | nil => intro u _ x hx; cases hx
  | cons v vs ih =>
    intro u h x hx
    obtain ⟨h1, h2⟩ := walkW_cons_ne_top hWF h
    rcases List.mem_cons.mp hx with rfl | hx
    · exact (edgeW_lt_bound hWF h1).2
    · exact ih v h2 x hx

theorem walkEnd_mem_or_eq (u : ℕ) (vs : List ℕ) : walkEnd u vs ∈ vs ∨ walkEnd u vs = u := by
  induction vs generalizing u with
  | nil => exact Or.inr rfl
  | cons v vs ih =>
    rcases ih v with h | h
    · exact Or.inl (List.mem_cons_of_mem _ h)
    · exact Or.inl (by rw [walkEnd, h]; exact List.mem_cons_self _ _)

/-! ## Reachability and negative cycles -/

/-- Vertex `z` is reachable from the Bellman–Ford source `0` through a walk of
finite total weight (only finite-weight edges can ever relax a distance). -/
def Reaches (G : Graph) (z : ℕ) : Prop :=
  ∃ vs, walkEnd 0 vs = z ∧ walkW G 0 vs ≠ ⊤

/-- Property that `vs` describes a closed walk at `u` (at least one edge) whose total weight
is negative in log space, i.e. whose ratio product is `< 1`. -/
def NegCycleFrom (G : Graph) (u : ℕ) (vs : List ℕ) : Prop :=
  vs ≠ [] ∧ walkEnd u vs = u ∧ walkW G u vs < 1

/-- A negative cycle exists somewhere in the graph (claim C1's notion). -/
def NegCycle (G : Graph) : Prop :=
  ∃ u vs, NegCycleFrom G u vs

/-- A negative cycle exists on vertices reachable from the source `0` —
the notion actually detected by relaxation from vertex `0`. -/
def NegCycleReachable (G : Graph) : Prop :=
  ∃ u vs, Reaches G u ∧ NegCycleFrom G u vs

theorem Reaches.zero (G : Graph) : Reaches G 0 :=
  ⟨[], rfl, by simp [walkW]⟩
/-! ## Bellman–Ford mechanics -/

theorem dset_of_length_le : ∀ (d : List (WithTop NNRat)) (k : ℕ) (x), d.length ≤ k →
    dset d k x = d
  | [], _, _, _ => rfl
  | _ :: d, 0, _, h => absurd h (by simp)
  | y :: d, k + 1, x, h => by
    rw [dset, dset_of_length_le d k x (Nat.le_of_succ_le_succ h)]

theorem length_relaxEdge (d : List (WithTop NNRat)) (e : ℕ × ℕ × WithTop NNRat) :
    (relaxEdge d e).length = d.length := by
  unfold relaxEdge
  split
  · exact length_dset d e.2.1 _
  · rfl

theorem length_relaxPass (es : List (ℕ × ℕ × WithTop NNRat)) (d : List (WithTop NNRat)) :
    (relaxPass es d).length = d.length := by
  induction es generalizing d with
  | nil => rfl
  | cons e es ih =>
    rw [relaxPass, List.foldl_cons]
    rw [show List.foldl relaxEdge (relaxEdge d e) es = relaxPass es (relaxEdge d e) from rfl]
    rw [ih, length_relaxEdge]

theorem length_passes (es : List (ℕ × ℕ × WithTop NNRat)) :
    ∀ (k : ℕ) (d : List (WithTop NNRat)), (passes es k d).length = d.length
  | 0, _ => rfl
  | k + 1, d => by rw [passes, length_passes es k, length_relaxPass]

theorem dget_eq_getElem? : ∀ (d : List (WithTop NNRat)) (v : ℕ), dget d v = (d[v]?).getD ⊤
  | [], v => by simp [dget]
  | x :: d, 0 => by simp [dget]
  | x :: d, v + 1 => by simpa [dget] using dget_eq_getElem? d v

theorem dget_initDist (n v : ℕ) :
    dget (initDist n) v = if v < n then (if v = 0 then 1 else ⊤) else ⊤ := by
  rw [dget_eq_getElem?, initDist]
  by_cases h : v < n
  · rw [List.getElem?_map, List.getElem?_range h]
    simp [h]
  · rw [List.getElem?_map, List.getElem?_eq_none (by simpa using not_lt.mp h)]
    simp [h]

theorem length_initDist (n : ℕ) : (initDist n).length = n := by
  simp [initDist]

theorem dget_relaxEdge_le (d : List (WithTop NNRat)) (e : ℕ × ℕ × WithTop NNRat) (v : ℕ) :
    dget (relaxEdge d e) v ≤ dget d v := by
  unfold relaxEdge
  split
  case isTrue h =>
    by_cases hv : e.2.1 = v
    · subst hv
      by_cases hlen : e.2.1 < d.length
      · rw [dget_dset_self _ _ _ hlen]
        exact le_of_lt h
      · rw [dset_of_length_le _ _ _ (not_lt.mp hlen)]
    · rw [dget_dset_ne _ _ _ _ hv]
  case isFalse h => exact le_rfl

theorem dget_relaxPass_le (es : List (ℕ × ℕ × WithTop NNRat)) (d : List (WithTop NNRat)) (v : ℕ) :
    dget (relaxPass es d) v ≤ dget d v := by
  induction es generalizing d with
  | nil => exact le_rfl
  | cons e es ih =>
    rw [relaxPass, List.foldl_cons]
    exact le_trans (ih (relaxEdge d e)) (dget_relaxEdge_le d e v)

theorem dget_relaxEdge_target (d : List (WithTop NNRat)) (e : ℕ × ℕ × WithTop NNRat)
    (hlen : e.2.1 < d.length) : dget (relaxEdge d e) e.2.1 ≤ dget d e.1 * e.2.2 := by
  unfold relaxEdge
  split
  case isTrue h => rw [dget_dset_self _ _ _ hlen]
  case isFalse h => exact not_lt.mp h

theorem dget_relaxPass_le_of_mem {es : List (ℕ × ℕ × WithTop NNRat)} {d : List (WithTop NNRat)}
    {u v : ℕ} {w : WithTop NNRat} (hmem : (u, v, w) ∈ es) (hlen : v < d.length) :
    dget (relaxPass es d) v ≤ dget d u * w := by
  obtain ⟨l₁, l₂, rfl⟩ := List.append_of_mem hmem
  rw [relaxPass, List.foldl_append, List.foldl_cons]
  calc dget (List.foldl relaxEdge (relaxEdge (List.foldl relaxEdge d l₁) (u, v, w)) l₂) v
      ≤ dget (relaxEdge (List.foldl relaxEdge d l₁) (u, v, w)) v :=
        dget_relaxPass_le l₂ _ v
    _ ≤ dget (List.foldl relaxEdge d l₁) u * w := by
        refine dget_relaxEdge_target _ (u, v, w) ?_
        rw [show List.foldl relaxEdge d l₁ = relaxPass l₁ d from rfl, length_relaxPass]
        exact hlen
    _ ≤ dget d u * w :=
        mul_le_mul_right' (dget_relaxPass_le l₁ d u) w

theorem dget_relaxEdge_ne_zero {d : List (WithTop NNRat)} {e : ℕ × ℕ × WithTop NNRat}
    (hd : ∀ k, dget d k ≠ 0) (he : e.2.2 ≠ 0) : ∀ k, dget (relaxEdge d e) k ≠ 0 := by
  intro k
  unfold relaxEdge
  split
  case isTrue h =>
    by_cases hv : e.2.1 = k
    · subst hv
      by_cases hlen : e.2.1 < d.length
      · rw [dget_dset_self _ _ _ hlen]
        exact mul_ne_zero (hd e.1) he
      · rw [dset_of_length_le _ _ _ (not_lt.mp hlen)]
        exact hd _
    · rw [dget_dset_ne _ _ _ _ hv]
      exact hd k
  case isFalse h => exact hd k

theorem dget_relaxPass_ne_zero {es : List (ℕ × ℕ × WithTop NNRat)} {d : List (WithTop NNRat)}
    (hd : ∀ k, dget d k ≠ 0) (hes : ∀ e ∈ es, e.2.2 ≠ 0) : ∀ k, dget (relaxPass es d) k ≠ 0 := by
  induction es generalizing d with
  | nil => exact hd
  | cons e es ih =>
    rw [relaxPass, List.foldl_cons]
    exact ih (dget_relaxEdge_ne_zero hd (hes e (List.mem_cons_self _ _)))
      (fun e' he' => hes e' (List.mem_cons_of_mem _ he'))

theorem dget_passes_ne_zero {es : List (ℕ × ℕ × WithTop NNRat)}
    (hes : ∀ e ∈ es, e.2.2 ≠ 0) :
    ∀ (k : ℕ) (d : List (WithTop NNRat)), (∀ l, dget d l ≠ 0) →
      ∀ l, dget (passes es k d) l ≠ 0
  | 0, _, hd => hd
  | k + 1, d, hd => by
    rw [passes]
    exact dget_passes_ne_zero hes k _ (dget_relaxPass_ne_zero hd hes)

theorem dget_initDist_ne_zero (n : ℕ) : ∀ k, dget (initDist n) k ≠ 0 := by
  intro k
  rw [dget_initDist]
  split
  · split
    · exact one_ne_zero
    · simp
  · simp

theorem bfDist_ne_zero {G : Graph} (hWF : G.WF) : ∀ k, dget (bfDist G) k ≠ 0 :=
  dget_passes_ne_zero (fun e he => (hWF.1 e he).2.2) _ _ (dget_initDist_ne_zero G.n)
/-! ## Bellman–Ford invariant 1: every finite distance is the weight of an
actual walk from the source -/

/-- Every finite entry of the distance array is attained by a walk from `0`. -/
def AttainedBy (G : Graph) (d : List (WithTop NNRat)) : Prop :=
  ∀ v, dget d v = ⊤ ∨ ∃ vs, walkEnd 0 vs = v ∧ walkW G 0 vs = dget d v

theorem attained_relaxEdge {G : Graph} {d : List (WithTop NNRat)}
    {e : ℕ × ℕ × WithTop NNRat} (hWF : G.WF) (he : e ∈ G.edges) (h : AttainedBy G d) :
    AttainedBy G (relaxEdge d e) := by
  obtain ⟨u, v, w⟩ := e
  intro x
  unfold relaxEdge
  split
  case isTrue hlt =>
    by_cases hv : v = x
    · subst hv
      by_cases hlen : v < d.length
      · rw [dget_dset_self _ _ _ hlen]
        right
        have hw : w ≠ 0 := (hWF.1 _ he).2.2
        have hu_ne : dget d u ≠ ⊤ := by
          intro htop
          rw [htop, WithTop.top_mul hw] at hlt
          exact not_top_lt hlt
        rcases h u with htop | ⟨vs, hend, hwalk⟩
        · exact absurd htop hu_ne
        · refine ⟨vs ++ [v], ?_, ?_⟩
          · rw [walkEnd_append, hend]
            rfl
          · rw [walkW_append, hend, hwalk]
            have hew : edgeW G u v = w := edgeW_eq_of_mem hWF he
            simp [walkW, hew]
      · rw [dset_of_length_le _ _ _ (not_lt.mp hlen)]
        exact h _
    · rw [dget_dset_ne _ _ _ _ hv]
      exact h x
  case isFalse => exact h x

theorem attained_relaxPass {G : Graph} (hWF : G.WF) :
    ∀ {es : List (ℕ × ℕ × WithTop NNRat)}, (∀ e ∈ es, e ∈ G.edges) →
      ∀ {d : List (WithTop NNRat)}, AttainedBy G d → AttainedBy G (relaxPass es d) := by
  intro es
  induction es with
  | nil => intro _ d h; exact h
  | cons e es ih =>
    intro hsub d h
    rw [relaxPass, List.foldl_cons]
    exact ih (fun e' he' => hsub e' (List.mem_cons_of_mem _ he'))
      (attained_relaxEdge hWF (hsub e (List.mem_cons_self _ _)) h)

theorem attained_passes {G : Graph} (hWF : G.WF) :
    ∀ (k : ℕ) (d : List (WithTop NNRat)), AttainedBy G d →
      AttainedBy G (passes G.edges k d)
  | 0, _, h => h
  | k + 1, d, h => by
    rw [passes]
    exact attained_passes hWF k _ (attained_relaxPass hWF (fun e he => he) h)

theorem attained_initDist (G : Graph) : AttainedBy G (initDist G.n) := by
  intro v
  rw [dget_initDist]
  by_cases hv : v < G.n
  · rw [if_pos hv]
    by_cases h0 : v = 0
    · subst h0
      rw [if_pos rfl]
      exact Or.inr ⟨[], rfl, rfl⟩
    · rw [if_neg h0]
      exact Or.inl rfl
  · rw [if_neg hv]
    exact Or.inl rfl

theorem bfDist_attained {G : Graph} (hWF : G.WF) : AttainedBy G (bfDist G) :=
  attained_passes hWF _ _ (attained_initDist G)

/-! ## Bellman–Ford invariant 2: after `k` passes, distances are below every
walk from the source with at most `k` edges -/

/-- After enough passes, `dist` un­der­cuts every walk with at most `k` edges. -/
def BoundsWalks (G : Graph) (k : ℕ) (d : List (WithTop NNRat)) : Prop :=
  ∀ vs : List ℕ, vs.length ≤ k → dget d (walkEnd 0 vs) ≤ walkW G 0 vs

theorem boundsWalks_initDist {G : Graph} (hn : 0 < G.n) :
    BoundsWalks G 0 (initDist G.n) := by
  intro vs hvs
  obtain rfl : vs = [] := List.length_eq_zero.mp (Nat.le_zero.mp hvs)
  rw [walkEnd, walkW, dget_initDist, if_pos hn, if_pos rfl]

theorem boundsWalks_succ {G : Graph} {k : ℕ} {d : List (WithTop NNRat)} (hWF : G.WF)
    (hlen : d.length = G.n) (h : BoundsWalks G k d) :
    BoundsWalks G (k + 1) (relaxPass G.edges d) := by
  intro vs hvs
  rcases List.eq_nil_or_concat vs with rfl | ⟨vs', v, rfl⟩
  · calc dget (relaxPass G.edges d) (walkEnd 0 []) ≤ dget d 0 := dget_relaxPass_le _ _ _
      _ ≤ walkW G 0 [] := h [] (Nat.zero_le _)
  · rw [List.concat_eq_append] at hvs ⊢
    have hvs' : vs'.length ≤ k := by
      rw [List.length_append] at hvs
      simpa using Nat.le_of_succ_le_succ (by simpa using hvs)
    have hend : walkEnd 0 (vs' ++ [v]) = v := by
      rw [walkEnd_append]
      rfl
    have hw_eq : walkW G 0 (vs' ++ [v]) = walkW G 0 vs' * edgeW G (walkEnd 0 vs') v := by
      rw [walkW_append]
      simp [walkW]
    by_cases hw : edgeW G (walkEnd 0 vs') v = ⊤
    · rw [hend, hw_eq, hw, WithTop.mul_top (walkW_ne_zero hWF _ _)]
      exact le_top
    · have hmem : (walkEnd 0 vs', v, edgeW G (walkEnd 0 vs') v) ∈ G.edges := edgeW_ne_top_mem hw
      have hvn : v < G.n := (hWF.1 _ hmem).2.1
      rw [hend, hw_eq]
      calc dget (relaxPass G.edges d) v
          ≤ dget d (walkEnd 0 vs') * edgeW G (walkEnd 0 vs') v :=
            dget_relaxPass_le_of_mem hmem (hlen ▸ hvn)
        _ ≤ walkW G 0 vs' * edgeW G (walkEnd 0 vs') v :=
            mul_le_mul_right' (h vs' hvs') _

theorem boundsWalks_passes {G : Graph} (hWF : G.WF) :
    ∀ (k : ℕ) (j : ℕ) (d : List (WithTop NNRat)), d.length = G.n → BoundsWalks G j d →
      BoundsWalks G (j + k) (passes G.edges k d)
  | 0, j, d, _, h => h
  | k + 1, j, d, hlen, h => by
    rw [passes]
    have step := boundsWalks_succ hWF hlen h
    have hlen' : (relaxPass G.edges d).length = G.n := by rw [length_relaxPass, hlen]
    have := boundsWalks_passes hWF k (j + 1) _ hlen' step
    rw [show j + 1 + k = j + (k + 1) by omega] at this
    exact this

theorem bfDist_bounds {G : Graph} (hWF : G.WF) (hn : 0 < G.n) :
    BoundsWalks G (G.n - 1) (bfDist G) := by
  have := boundsWalks_passes hWF (G.n - 1) 0 (initDist G.n) (length_initDist G.n)
    (boundsWalks_initDist hn)
  simpa using this
/-! ## Soundness: a reachable negative cycle forces a detectable improvement -/

theorem no_improve_walk_bound {G : Graph} (hWF : G.WF) {D : List (WithTop NNRat)}
    (hnz : ∀ k, dget D k ≠ 0)
    (hni : ∀ e ∈ G.edges, dget D e.2.1 ≤ dget D e.1 * e.2.2) :
    ∀ (vs : List ℕ) (u : ℕ), dget D (walkEnd u vs) ≤ dget D u * walkW G u vs := by
  intro vs
  induction vs with
  | nil => intro u; simp [walkEnd, walkW]
  | cons v vs ih =>
    intro u
    show dget D (walkEnd v vs) ≤ dget D u * walkW G u (v :: vs)
    by_cases hw : edgeW G u v = ⊤
    · calc dget D (walkEnd v vs) ≤ ⊤ := le_top
        _ = dget D u * walkW G u (v :: vs) := by
            rw [walkW, hw, WithTop.top_mul (walkW_ne_zero hWF v vs),
              WithTop.mul_top (hnz u)]
    · have hmem : (u, v, edgeW G u v) ∈ G.edges := edgeW_ne_top_mem hw
      have hstep : dget D v ≤ dget D u * edgeW G u v := hni _ hmem
      calc dget D (walkEnd v vs) ≤ dget D v * walkW G v vs := ih v
        _ ≤ dget D u * edgeW G u v * walkW G v vs := mul_le_mul_right' hstep _
        _ = dget D u * walkW G u (v :: vs) := by rw [walkW, mul_assoc]

theorem dup_split {l : List ℕ} (h : ¬ l.Nodup) :
    ∃ z A B C, l = A ++ z :: B ++ z :: C := by
  induction l with
  | nil => exact absurd List.nodup_nil h
  | cons x xs ih =>
    by_cases hx : x ∈ xs
    · obtain ⟨B, C, rfl⟩ := List.append_of_mem hx
      exact ⟨x, [], B, C, rfl⟩
    · have hxs : ¬ xs.Nodup := fun hnd => h (List.nodup_cons.mpr ⟨hx, hnd⟩)
      obtain ⟨z, A, B, C, rfl⟩ := ih hxs
      exact ⟨z, x :: A, B, C, rfl⟩

theorem length_le_of_nodup_lt {l : List ℕ} {n : ℕ} (hnd : l.Nodup)
    (hlt : ∀ x ∈ l, x < n) : l.length ≤ n := by
  have hsub : l ⊆ List.range n := fun x hx => List.mem_range.mpr (hlt x hx)
  simpa using (List.subperm_of_subset hnd hsub).length_le

theorem reach_short_aux {G : Graph} (hWF : G.WF) (hn : 0 < G.n) :
    ∀ (L : ℕ) (vs : List ℕ), vs.length = L → walkW G 0 vs ≠ ⊤ →
      ∃ ws, ws.length ≤ G.n - 1 ∧ walkEnd 0 ws = walkEnd 0 vs ∧ walkW G 0 ws ≠ ⊤ := by
  intro L
  induction L using Nat.strong_induction_on with
  | _ L ih =>
    intro vs hlen hvs
    by_cases hsh : vs.length ≤ G.n - 1
    · exact ⟨vs, hsh, rfl, hvs⟩
    · have hbound : ∀ x ∈ 0 :: vs, x < G.n := by
        intro x hx
        rcases List.mem_cons.mp hx with rfl | hx
        · exact hn
        · exact walk_vertices_lt hWF vs 0 hvs x hx
      have hnotnd : ¬ (0 :: vs).Nodup := by
        intro hnd
        have hle := length_le_of_nodup_lt hnd hbound
        rw [List.length_cons] at hle
        omega
      obtain ⟨z, A, B, C, hsplit⟩ := dup_split hnotnd
      cases A with
      | nil =>
        have hz : z = 0 := ((List.cons.injEq ..).mp hsplit.symm).1
        have hvseq : vs = B ++ z :: C := ((List.cons.injEq ..).mp hsplit.symm).2.symm
        subst hz
        have hvs2 : walkW G 0 ((B ++ [0]) ++ C) ≠ ⊤ := by
          rw [← List.append_cons] at *
          rw [← hvseq]
          exact hvs
        have hparts := walkW_append_ne_top hWF hvs2
        have hendB : walkEnd 0 (B ++ [0]) = 0 := by rw [walkEnd_append]; rfl
        have hCne : walkW G 0 C ≠ ⊤ := by
          have := hparts.2
          rwa [hendB] at this
        have hCshorter : C.length < L := by
          rw [← hlen, hvseq]
          simp
          omega
        obtain ⟨ws, hws1, hws2, hws3⟩ := ih C.length hCshorter C rfl hCne
        refine ⟨ws, hws1, ?_, hws3⟩
        rw [hws2, hvseq, List.append_cons, walkEnd_append, hendB]
      | cons a A' =>
        have ha : a = 0 := ((List.cons.injEq ..).mp hsplit).1.symm
        have hvseq : vs = A' ++ z :: B ++ z :: C := ((List.cons.injEq ..).mp hsplit).2
        have hvs2 : walkW G 0 ((A' ++ [z]) ++ ((B ++ [z]) ++ C)) ≠ ⊤ := by
          have : (A' ++ [z]) ++ ((B ++ [z]) ++ C) = A' ++ z :: B ++ z :: C := by
            simp
          rw [this, ← hvseq]
          exact hvs
        have hpartsA := walkW_append_ne_top hWF hvs2
        have hendA : walkEnd 0 (A' ++ [z]) = z := by rw [walkEnd_append]; rfl
        have hrest : walkW G z ((B ++ [z]) ++ C) ≠ ⊤ := by
          have := hpartsA.2
          rwa [hendA] at this
        have hpartsB := walkW_append_ne_top hWF hrest
        have hendB : walkEnd z (B ++ [z]) = z := by rw [walkEnd_append]; rfl
        have hCne : walkW G z C ≠ ⊤ := by
          have := hpartsB.2
          rwa [hendB] at this
        have hnew : walkW G 0 ((A' ++ [z]) ++ C) ≠ ⊤ := by
          rw [walkW_append, hendA]
          exact WithTop.mul_ne_top hpartsA.1 hCne
        have hnewlen : ((A' ++ [z]) ++ C).length < L := by
          rw [← hlen, hvseq]
          simp
          omega
        obtain ⟨ws, hws1, hws2, hws3⟩ := ih _ hnewlen _ rfl hnew
        refine ⟨ws, hws1, ?_, hws3⟩
        have e1 : walkEnd 0 ((A' ++ [z]) ++ C) = walkEnd z C := by
          rw [walkEnd_append 0 (A' ++ [z]) C, hendA]
        have e2 : walkEnd 0 vs = walkEnd z C := by
          rw [hvseq, show A' ++ z :: B ++ z :: C = (A' ++ [z]) ++ ((B ++ [z]) ++ C) by simp,
            walkEnd_append 0 (A' ++ [z]) ((B ++ [z]) ++ C), hendA,
            walkEnd_append z (B ++ [z]) C, hendB]
        rw [hws2, e1]
        exact e2.symm

theorem reach_short {G : Graph} (hWF : G.WF) (hn : 0 < G.n) {vs : List ℕ}
    (hvs : walkW G 0 vs ≠ ⊤) :
    ∃ ws, ws.length ≤ G.n - 1 ∧ walkEnd 0 ws = walkEnd 0 vs ∧ walkW G 0 ws ≠ ⊤ :=
  reach_short_aux hWF hn vs.length vs rfl hvs

theorem soundness {G : Graph} (hWF : G.WF) (hn : 0 < G.n) (hcyc : NegCycleReachable G) :
    has_negative_cycle G = true := by
  by_contra hfalse
  have hno : ∀ e ∈ G.edges, ¬ (dget (bfDist G) e.1 * e.2.2 < dget (bfDist G) e.2.1) := by
    have : has_negative_cycle G = false := Bool.not_eq_true _ ▸ Bool.of_not_eq_true hfalse
    rw [has_negative_cycle] at this
    simp only [List.any_eq_false, decide_eq_true_eq] at this
    exact this
  have hni : ∀ e ∈ G.edges, dget (bfDist G) e.2.1 ≤ dget (bfDist G) e.1 * e.2.2 :=
    fun e he => not_lt.mp (hno e he)
  obtain ⟨u, cs, hreach, hcs_ne, hend, hlt⟩ := hcyc
  obtain ⟨vs, hvend, hvne⟩ := hreach
  obtain ⟨ws, hwslen, hwend, hwne⟩ := reach_short hWF hn hvne
  have hDu_le : dget (bfDist G) u ≤ walkW G 0 ws := by
    have := bfDist_bounds hWF hn ws hwslen
    rwa [hwend, hvend] at this
  have hDu_ne_top : dget (bfDist G) u ≠ ⊤ := by
    intro htop
    rw [htop] at hDu_le
    exact hwne (top_le_iff.mp hDu_le)
  have hDu_ne_zero : dget (bfDist G) u ≠ 0 := bfDist_ne_zero hWF u
  have hkey : dget (bfDist G) u ≤ dget (bfDist G) u * walkW G u cs := by
    have := no_improve_walk_bound hWF (bfDist_ne_zero hWF) hni cs u
    rwa [hend] at this
  obtain ⟨q, hq⟩ := WithTop.ne_top_iff_exists.mp hDu_ne_top
  have hcs_ne_top : walkW G u cs ≠ ⊤ := ne_top_of_lt hlt
  obtain ⟨c, hc⟩ := WithTop.ne_top_iff_exists.mp hcs_ne_top
  rw [← hq, ← hc] at hkey
  rw [← hc] at hlt
  have hq_pos : 0 < q := by
    rcases (zero_le q).lt_or_eq with h | h
    · exact h
    · exact absurd (by rw [← hq, ← h]; rfl) hDu_ne_zero
  have hc_lt : c < 1 := by
    rw [show (1 : WithTop NNRat) = ((1 : NNRat) : WithTop NNRat) from rfl] at hlt
    exact WithTop.coe_lt_coe.mp hlt
  have : (q : WithTop NNRat) * c < q := by
    rw [← WithTop.coe_mul, WithTop.coe_lt_coe]
    exact mul_lt_of_lt_one_right hq_pos hc_lt
  exact absurd (lt_of_le_of_lt hkey this) (lt_irrefl _)
/-! ## Completeness: a detected improvement exhibits a reachable negative
cycle -/

theorem cycle_of_below_bound {G : Graph} (hWF : G.WF) (hn : 0 < G.n) :
    ∀ (L : ℕ) (vs : List ℕ), vs.length = L → walkW G 0 vs ≠ ⊤ →
      (∀ ws, walkEnd 0 ws = walkEnd 0 vs → ws.length ≤ G.n - 1 →
        walkW G 0 vs < walkW G 0 ws) →
      NegCycleReachable G := by
  intro L
  induction L using Nat.strong_induction_on with
  | _ L ih =>
    intro vs hlen hvs hbelow
    by_cases hsh : vs.length ≤ G.n - 1
    · exact absurd (hbelow vs rfl hsh) (lt_irrefl _)
    · have hbound : ∀ x ∈ 0 :: vs, x < G.n := by
        intro x hx
        rcases List.mem_cons.mp hx with rfl | hx
        · exact hn
        · exact walk_vertices_lt hWF vs 0 hvs x hx
      have hnotnd : ¬ (0 :: vs).Nodup := by
        intro hnd
        have hle := length_le_of_nodup_lt hnd hbound
        rw [List.length_cons] at hle
        omega
      obtain ⟨z, A, B, C, hsplit⟩ := dup_split hnotnd
      cases A with
      | nil =>
        have hz : z = 0 := ((List.cons.injEq ..).mp hsplit.symm).1
        have hvseq : vs = B ++ z :: C := ((List.cons.injEq ..).mp hsplit.symm).2.symm
        subst hz
        have hvseq2 : vs = (B ++ [0]) ++ C := by rw [hvseq, ← List.append_cons]
        have hendB : walkEnd 0 (B ++ [0]) = 0 := by rw [walkEnd_append]; rfl
        have hsplitW : walkW G 0 vs = walkW G 0 (B ++ [0]) * walkW G 0 C := by
          rw [hvseq2, walkW_append, hendB]
        by_cases hneg : walkW G 0 (B ++ [0]) < 1
        · refine ⟨0, B ++ [0], Reaches.zero G, ?_, hendB, hneg⟩
          simp
        · have h1 : 1 ≤ walkW G 0 (B ++ [0]) := not_lt.mp hneg
          have hle : walkW G 0 C ≤ walkW G 0 vs := by
            rw [hsplitW]
            exact le_mul_of_one_le_left' h1
          have hCne : walkW G 0 C ≠ ⊤ := fun htop => hvs (top_le_iff.mp (htop ▸ hle))
          have hCend : walkEnd 0 C = walkEnd 0 vs := by
            rw [hvseq2, walkEnd_append 0 (B ++ [0]) C, hendB]
          have hCbelow : ∀ ws, walkEnd 0 ws = walkEnd 0 C → ws.length ≤ G.n - 1 →
              walkW G 0 C < walkW G 0 ws := by
            intro ws hwsend hwslen
            exact lt_of_le_of_lt hle (hbelow ws (hCend ▸ hwsend) hwslen)
          have hCshort : C.length < L := by
            rw [← hlen, hvseq]
            simp
            omega
          exact ih C.length hCshort C rfl hCne hCbelow
      | cons a A' =>
        have ha : a = 0 := ((List.cons.injEq ..).mp hsplit).1.symm
        have hvseq : vs = A' ++ z :: B ++ z :: C := ((List.cons.injEq ..).mp hsplit).2
        have hvseq2 : vs = (A' ++ [z]) ++ ((B ++ [z]) ++ C) := by
          rw [hvseq]
          simp
        have hendA : walkEnd 0 (A' ++ [z]) = z := by rw [walkEnd_append]; rfl
        have hendB : walkEnd z (B ++ [z]) = z := by rw [walkEnd_append]; rfl
        have hsplitW : walkW G 0 vs =
            walkW G 0 (A' ++ [z]) * (walkW G z (B ++ [z]) * walkW G z C) := by
          rw [hvseq2, walkW_append G 0 (A' ++ [z]), hendA,
            walkW_append G z (B ++ [z]) C, hendB]
        have hvs2 : walkW G 0 ((A' ++ [z]) ++ ((B ++ [z]) ++ C)) ≠ ⊤ := by
          rw [← hvseq2]
          exact hvs
        have hpartsA := walkW_append_ne_top hWF hvs2
        have hAne : walkW G 0 (A' ++ [z]) ≠ ⊤ := hpartsA.1
        have hreach : Reaches G z := ⟨A' ++ [z], hendA, hAne⟩
        by_cases hneg : walkW G z (B ++ [z]) < 1
        · refine ⟨z, B ++ [z], hreach, ?_, hendB, hneg⟩
          simp
        · have h1 : 1 ≤ walkW G z (B ++ [z]) := not_lt.mp hneg
          have hnewW : walkW G 0 ((A' ++ [z]) ++ C) =
              walkW G 0 (A' ++ [z]) * walkW G z C := by
            rw [walkW_append G 0 (A' ++ [z]) C, hendA]
          have hle : walkW G 0 ((A' ++ [z]) ++ C) ≤ walkW G 0 vs := by
            rw [hsplitW, hnewW]
            exact mul_le_mul_left' (le_mul_of_one_le_left' h1) _
          have hCne : walkW G 0 ((A' ++ [z]) ++ C) ≠ ⊤ :=
            fun htop => hvs (top_le_iff.mp (htop ▸ hle))
          have hCend : walkEnd 0 ((A' ++ [z]) ++ C) = walkEnd 0 vs := by
            rw [hvseq2, walkEnd_append 0 (A' ++ [z]) C, hendA,
              walkEnd_append 0 (A' ++ [z]) ((B ++ [z]) ++ C), hendA,
              walkEnd_append z (B ++ [z]) C, hendB]
          have hCbelow : ∀ ws, walkEnd 0 ws = walkEnd 0 ((A' ++ [z]) ++ C) →
              ws.length ≤ G.n - 1 → walkW G 0 ((A' ++ [z]) ++ C) < walkW G 0 ws := by
            intro ws hwsend hwslen
            exact lt_of_le_of_lt hle (hbelow ws (hCend ▸ hwsend) hwslen)
          have hCshort : ((A' ++ [z]) ++ C).length < L := by
            rw [← hlen, hvseq]
            simp
            omega
          exact ih _ hCshort _ rfl hCne hCbelow

theorem detect_imp_cycle {G : Graph} (hWF : G.WF) (hn : 0 < G.n)
    (h : has_negative_cycle G = true) : NegCycleReachable G := by
  rw [has_negative_cycle] at h
  simp only [List.any_eq_true, decide_eq_true_eq] at h
  obtain ⟨e, he, hlt⟩ := h
  obtain ⟨x, y, w⟩ := e
  have hw0 : w ≠ 0 := (hWF.1 _ he).2.2
  have hx_ne_top : dget (bfDist G) x ≠ ⊤ := by
    intro htop
    rw [show (x, y, w).1 = x from rfl, show (x, y, w).2.2 = w from rfl,
      show (x, y, w).2.1 = y from rfl] at hlt
    rw [htop, WithTop.top_mul hw0] at hlt
    exact not_top_lt hlt
  have hlt' : dget (bfDist G) x * w < dget (bfDist G) y := hlt
  rcases bfDist_attained hWF x with htop | ⟨vsx, hendx, hwx⟩
  · exact absurd htop hx_ne_top
  have hew : edgeW G x y = w := edgeW_eq_of_mem hWF he
  have hendy : walkEnd 0 (vsx ++ [y]) = y := by rw [walkEnd_append]; rfl
  have hwstar : walkW G 0 (vsx ++ [y]) = dget (bfDist G) x * w := by
    rw [walkW_append, hendx, hwx]
    simp [walkW, hew]
  have hne_top : walkW G 0 (vsx ++ [y]) ≠ ⊤ := by
    rw [hwstar]
    exact ne_top_of_lt hlt'
  have hbelow : ∀ ws, walkEnd 0 ws = walkEnd 0 (vsx ++ [y]) → ws.length ≤ G.n - 1 →
      walkW G 0 (vsx ++ [y]) < walkW G 0 ws := by
    intro ws hwsend hwslen
    have hb := bfDist_bounds hWF hn ws hwslen
    rw [hwsend, hendy] at hb
    calc walkW G 0 (vsx ++ [y]) = dget (bfDist G) x * w := hwstar
      _ < dget (bfDist G) y := hlt'
      _ ≤ walkW G 0 ws := hb
  exact cycle_of_below_bound hWF hn _ _ rfl hne_top hbelow

/-- Bellman–Ford correctness over the exchange graph: the detector as
specified (relaxation from source `0`) fires exactly on negative cycles whose
vertices are reachable from vertex `0` through finite-weight walks. -/
theorem bf_correct {G : Graph} (hWF : G.WF) (hn : 0 < G.n) :
    has_negative_cycle G = true ↔ NegCycleReachable G :=
  ⟨detect_imp_cycle hWF hn, soundness hWF hn⟩
/-! ## The explicit log-space reading of weights

The source stores `math.log10(ratio)` on each edge.  `elog10` is that map on
the idealised values: `log10` proper on finite positive ratios, `+∞ ↦ +∞`
(`math.log10(float('inf')) == inf`), and `⊥` marking the `0` argument on
which `math.log10` raises (such a ratio never reaches a built graph). -/

noncomputable def elog10 : WithTop NNRat → EReal
  | ⊤ => (⊤ : EReal)
  | (q : NNRat) => if q = 0 then (⊥ : EReal) else ((Real.logb 10 (q : ℝ) : ℝ) : EReal)

theorem elog10_top : elog10 ⊤ = ⊤ := rfl

theorem elog10_coe {q : NNRat} (hq : q ≠ 0) :
    elog10 (q : WithTop NNRat) = ((Real.logb 10 (q : ℝ) : ℝ) : EReal) := by
  simp [elog10, hq]

theorem elog10_eq_top_iff (x : WithTop NNRat) : elog10 x = ⊤ ↔ x = ⊤ := by
  cases x with
  | top => simp [elog10_top]
  | coe q =>
    by_cases hq : q = 0
    · subst hq
      constructor
      · intro h
        exact absurd h (by simp [elog10])
      · intro h
        exact absurd h (by simp)
    · rw [elog10_coe hq]
      constructor
      · intro h
        exact absurd h (EReal.coe_ne_top _)
      · intro h
        exact absurd h (by simp)

theorem elog10_mul {x y : WithTop NNRat} (hx : x ≠ 0) (hy : y ≠ 0) :
    elog10 (x * y) = elog10 x + elog10 y := by
  cases x with
  | top =>
    cases y with
    | top => rfl
    | coe q =>
      have hq : q ≠ 0 := by simpa using hy
      rw [WithTop.top_mul hy, elog10_top, elog10_coe hq, EReal.top_add_coe]
  | coe p =>
    have hp : p ≠ 0 := by simpa using hx
    cases y with
    | top =>
      rw [WithTop.mul_top hx, elog10_top, elog10_coe hp, EReal.coe_add_top]
    | coe q =>
      have hq : q ≠ 0 := by simpa using hy
      have hpq : p * q ≠ 0 := mul_ne_zero hp hq
      rw [← WithTop.coe_mul, elog10_coe hpq, elog10_coe hp, elog10_coe hq, ← EReal.coe_add]
      have hcast : ((p * q : NNRat) : ℝ) = (p : ℝ) * (q : ℝ) := by push_cast; ring
      have hp' : (p : ℝ) ≠ 0 := by exact_mod_cast hp
      have hq' : (q : ℝ) ≠ 0 := by exact_mod_cast hq
      rw [hcast, Real.logb_mul hp' hq']

theorem elog10_one : elog10 (1 : WithTop NNRat) = 0 := by
  rw [show (1 : WithTop NNRat) = ((1 : NNRat) : WithTop NNRat) from rfl,
    elog10_coe one_ne_zero]
  simp [Real.logb_one]

theorem elog10_neg_iff {x : WithTop NNRat} (hx : x ≠ 0) :
    elog10 x < 0 ↔ x < 1 := by
  cases x with
  | top =>
    rw [elog10_top]
    simp only [iff_iff_implies_and_implies]
    constructor
    · intro h
      exact absurd h (not_top_lt)
    · intro h
      exact absurd h (not_top_lt)
  | coe q =>
    have hq : q ≠ 0 := by simpa using hx
    have hq_pos : (0 : ℝ) < (q : ℝ) := by
      have : 0 < q := zero_lt_iff.mpr hq
      exact_mod_cast this
    rw [elog10_coe hq]
    rw [show (0 : EReal) = ((0 : ℝ) : EReal) from rfl, EReal.coe_lt_coe_iff]
    rw [Real.logb_neg_iff (by norm_num) hq_pos]
    rw [show (1 : WithTop NNRat) = ((1 : NNRat) : WithTop NNRat) from rfl,
      WithTop.coe_lt_coe]
    constructor
    · intro h
      exact_mod_cast h
    · intro h
      exact_mod_cast h

theorem elog10_nonpos_iff {x : WithTop NNRat} (hx : x ≠ 0) :
    elog10 x ≤ 0 ↔ x ≤ 1 := by
  cases x with
  | top =>
    rw [elog10_top]
    constructor
    · intro h
      exact absurd (lt_of_lt_of_le (by simp : (0 : EReal) < ⊤) h) (lt_irrefl _)
    · intro h
      exact absurd (lt_of_lt_of_le (by simp : (1 : WithTop NNRat) < ⊤) h) (lt_irrefl _)
  | coe q =>
    have hq : q ≠ 0 := by simpa using hx
    have hq_pos : (0 : ℝ) < (q : ℝ) := by
      have : 0 < q := zero_lt_iff.mpr hq
      exact_mod_cast this
    rw [elog10_coe hq]
    rw [show (0 : EReal) = ((0 : ℝ) : EReal) from rfl, EReal.coe_le_coe_iff]
    rw [Real.logb_nonpos_iff (by norm_num) hq_pos]
    rw [show (1 : WithTop NNRat) = ((1 : NNRat) : WithTop NNRat) from rfl,
      WithTop.coe_le_coe]
    constructor
    · intro h
      exact_mod_cast h
    · intro h
      exact_mod_cast h

/-- Additive log-space weight of a walk: the sum of the `log10` weights the
source stores on the edges, as an extended real. -/
noncomputable def logWalkW (G : Graph) : ℕ → List ℕ → EReal
  | _, [] => 0
  | u, v :: vs => elog10 (edgeW G u v) + logWalkW G v vs

theorem logWalkW_eq {G : Graph} (hWF : G.WF) :
    ∀ (vs : List ℕ) (u : ℕ), logWalkW G u vs = elog10 (walkW G u vs) := by
  intro vs
  induction vs with
  | nil => intro u; rw [logWalkW, walkW, elog10_one]
  | cons v vs ih =>
    intro u
    rw [logWalkW, walkW, elog10_mul (edgeW_ne_zero hWF u v) (walkW_ne_zero hWF v vs), ih v]

/-- Log-space reachability: a walk from vertex `0` of finite log-weight. -/
def ReachesLog (G : Graph) (z : ℕ) : Prop :=
  ∃ vs, walkEnd 0 vs = z ∧ logWalkW G 0 vs ≠ ⊤

/-- Log-space negative closed walk at `u`: at least one edge, returns to `u`,
and the sum of the stored `log10` edge weights is strictly negative. -/
def NegCycleFromLog (G : Graph) (u : ℕ) (vs : List ℕ) : Prop :=
  vs ≠ [] ∧ walkEnd u vs = u ∧ logWalkW G u vs < 0

/-- A directed cycle of strictly negative total log-weight exists in the
graph (the spec's "negative cycle"). -/
def NegCycleLog (G : Graph) : Prop :=
  ∃ u vs, NegCycleFromLog G u vs

/-- A negative-log-weight cycle whose vertices are reachable from vertex `0`
by finite-weight walks. -/
def NegCycleReachableLog (G : Graph) : Prop :=
  ∃ u vs, ReachesLog G u ∧ NegCycleFromLog G u vs

theorem reachesLog_iff {G : Graph} (hWF : G.WF) (z : ℕ) :
    ReachesLog G z ↔ Reaches G z := by
  unfold ReachesLog Reaches
  constructor
  · rintro ⟨vs, hend, hne⟩
    refine ⟨vs, hend, ?_⟩
    rw [logWalkW_eq hWF] at hne
    intro htop
    exact hne (by rw [htop, elog10_top])
  · rintro ⟨vs, hend, hne⟩
    refine ⟨vs, hend, ?_⟩
    rw [logWalkW_eq hWF]
    intro htop
    exact hne ((elog10_eq_top_iff _).mp htop)

theorem negCycleFromLog_iff {G : Graph} (hWF : G.WF) (u : ℕ) (vs : List ℕ) :
    NegCycleFromLog G u vs ↔ NegCycleFrom G u vs := by
  unfold NegCycleFromLog NegCycleFrom
  rw [logWalkW_eq hWF, elog10_neg_iff (walkW_ne_zero hWF u vs)]

theorem negCycleReachableLog_iff {G : Graph} (hWF : G.WF) :
    NegCycleReachableLog G ↔ NegCycleReachable G := by
  unfold NegCycleReachableLog NegCycleReachable
  constructor
  · rintro ⟨u, vs, h1, h2⟩
    exact ⟨u, vs, (reachesLog_iff hWF u).mp h1, (negCycleFromLog_iff hWF u vs).mp h2⟩
  · rintro ⟨u, vs, h1, h2⟩
    exact ⟨u, vs, (reachesLog_iff hWF u).mpr h1, (negCycleFromLog_iff hWF u vs).mpr h2⟩

theorem negCycleLog_iff {G : Graph} (hWF : G.WF) :
    NegCycleLog G ↔ NegCycle G := by
  unfold NegCycleLog NegCycle
  constructor
  · rintro ⟨u, vs, h⟩
    exact ⟨u, vs, (negCycleFromLog_iff hWF u vs).mp h⟩
  · rintro ⟨u, vs, h⟩
    exact ⟨u, vs, (negCycleFromLog_iff hWF u vs).mpr h⟩
/-! ## Fine structure of `calculate_min_ratio` -/

theorem entry_eq_zero_of_le : ∀ (r : List NNRat) (k : ℕ), r.length ≤ k → entry r k = 0
  | [], _, _ => rfl
  | _ :: r, 0, h => absurd h (by simp)
  | _ :: r, k + 1, h => entry_eq_zero_of_le r k (Nat.le_of_succ_le_succ h)

theorem mem_qualIdx {ai aj : List NNRat} {k : ℕ} :
    k ∈ qualIdx ai aj ↔ k < ai.length ∧ entry ai k ≠ 0 ∧ entry aj k ≠ 0 := by
  simp [qualIdx, List.mem_filter, List.mem_range, bne_iff_ne]

theorem minRatioRows_some_parts {vi vj ai aj : List NNRat} {r : WithTop NNRat}
    (h : minRatioRows vi vj ai aj = some r) :
    (∀ k ∈ qualIdx ai aj, entry vj k * entry aj k ≠ 0) ∧
      r = minFold ((qualIdx ai aj).map (fun k => ((cand vi vj ai aj k : NNRat) : WithTop NNRat))) := by
  unfold minRatioRows at h
  split at h
  · exact absurd h (by simp)
  · case isFalse hguard =>
    refine ⟨?_, (Option.some.inj h).symm⟩
    intro k hk h0
    apply hguard
    rw [List.any_eq_true]
    exact ⟨k, hk, by simpa using h0⟩

theorem minRatioRows_eq_some {vi vj ai aj : List NNRat}
    (h : ∀ k ∈ qualIdx ai aj, entry vj k * entry aj k ≠ 0) :
    minRatioRows vi vj ai aj =
      some (minFold ((qualIdx ai aj).map (fun k => ((cand vi vj ai aj k : NNRat) : WithTop NNRat)))) := by
  unfold minRatioRows
  rw [if_neg]
  intro hany
  rw [List.any_eq_true] at hany
  obtain ⟨k, hk, hk0⟩ := hany
  exact h k hk (by simpa using hk0)

theorem buildEdges_none_of_mem {v a : List (List NNRat)} {p : ℕ × ℕ} :
    ∀ {ps : List (ℕ × ℕ)}, p ∈ ps → edgeOf v a p = none → buildEdges v a ps = none := by
  intro ps
  induction ps with
  | nil => intro h; cases h
  | cons q ps ih =>
    intro hp hnone
    rcases List.mem_cons.mp hp with rfl | hp
    · rw [buildEdges, hnone]
    · rw [buildEdges, ih hp hnone]
      cases edgeOf v a q <;> rfl

/-! ## Degenerate goods-free input (claim C10 machinery) -/

theorem nthRow_replicate_nil : ∀ (n i : ℕ), nthRow (List.replicate n ([] : List NNRat)) i = []
  | 0, _ => rfl
  | _ + 1, 0 => rfl
  | n + 1, i + 1 => nthRow_replicate_nil n i

theorem calc_replicate_top (n : ℕ) (i j : ℕ) :
    calculate_min_ratio i j (List.replicate n []) (List.replicate n []) = some ⊤ := by
  simp only [calculate_min_ratio, nthRow_replicate_nil]
  rfl

theorem buildEdges_all_top {v a : List (List NNRat)}
    (hcalc : ∀ p : ℕ × ℕ, calculate_min_ratio p.1 p.2 v a = some ⊤) :
    ∀ ps : List (ℕ × ℕ), buildEdges v a ps = some (ps.map (fun p => (p.1, p.2, (⊤ : WithTop NNRat))))
  | [] => rfl
  | p :: ps => by
    have he : edgeOf v a p = some (p.1, p.2, ⊤) := by
      rw [edgeOf, hcalc p]
      simp
    rw [buildEdges, he, buildEdges_all_top hcalc ps, List.map_cons]

theorem relaxEdge_top_eq {d : List (WithTop NNRat)} {e : ℕ × ℕ × WithTop NNRat}
    (hd : ∀ k, dget d k ≠ 0) (htop : e.2.2 = ⊤) : relaxEdge d e = d := by
  unfold relaxEdge
  rw [if_neg]
  rw [htop, WithTop.mul_top (hd e.1)]
  exact not_top_lt

theorem relaxPass_top_eq {d : List (WithTop NNRat)} (hd : ∀ k, dget d k ≠ 0) :
    ∀ {es : List (ℕ × ℕ × WithTop NNRat)}, (∀ e ∈ es, e.2.2 = ⊤) → relaxPass es d = d := by
  intro es
  induction es with
  | nil => intro _; rfl
  | cons e es ih =>
    intro htop
    rw [relaxPass, List.foldl_cons, relaxEdge_top_eq hd (htop e (List.mem_cons_self _ _))]
    exact ih (fun e' he' => htop e' (List.mem_cons_of_mem _ he'))

theorem passes_top_eq {d : List (WithTop NNRat)} (hd : ∀ k, dget d k ≠ 0)
    {es : List (ℕ × ℕ × WithTop NNRat)} (htop : ∀ e ∈ es, e.2.2 = ⊤) :
    ∀ k, passes es k d = d
  | 0 => rfl
  | k + 1 => by
    rw [passes, relaxPass_top_eq hd htop, passes_top_eq hd htop k]

theorem has_negative_cycle_all_top {G : Graph} (htop : ∀ e ∈ G.edges, e.2.2 = ⊤) :
    has_negative_cycle G = false := by
  rw [has_negative_cycle]
  rw [List.any_eq_false]
  intro e he
  simp only [decide_eq_true_eq]
  rw [show bfDist G = initDist G.n from
    passes_top_eq (dget_initDist_ne_zero G.n) htop (G.n - 1)]
  rw [htop e he, WithTop.mul_top (dget_initDist_ne_zero G.n e.1)]
  exact not_top_lt
/-! ## Relabelling agents (claim C7 machinery) -/

/-- Lookup `pelem p i` is `p[i]` (defaulting to `0` out of range): position `i` of a
permutation given as a list of row indices. -/
def pelem : List ℕ → ℕ → ℕ
  | [], _ => 0
  | x :: _, 0 => x
  | _ :: p, k + 1 => pelem p k

/-- Index of `y` in `p` (first occurrence; `p.length`-ish junk if absent). -/
def pidx : List ℕ → ℕ → ℕ
  | [], _ => 0
  | x :: p, y => if x = y then 0 else pidx p y + 1

/-- Apply a row permutation: row `i` of the result is row `p[i]` of `M`.
Permuting the agents of both matrices simultaneously is
`(applyPerm p valuations, applyPerm p allocation)`. -/
def applyPerm (p : List ℕ) (M : List (List NNRat)) : List (List NNRat) :=
  p.map (fun i => nthRow M i)

theorem pelem_mem : ∀ (p : List ℕ) (i : ℕ), i < p.length → pelem p i ∈ p
  | [], _, h => absurd h (by simp)
  | x :: p, 0, _ => List.mem_cons_self _ _
  | x :: p, i + 1, h => List.mem_cons_of_mem _ (pelem_mem p i (Nat.lt_of_succ_lt_succ h))

theorem pelem_inj : ∀ {p : List ℕ}, p.Nodup → ∀ {i j : ℕ}, i < p.length → j < p.length →
    pelem p i = pelem p j → i = j := by
  intro p
  induction p with
  | nil => intro _ i j hi; exact absurd hi (by simp)
  | cons x p ih =>
    intro hnd i j hi hj heq
    obtain ⟨hx, hp⟩ := List.nodup_cons.mp hnd
    match i, j with
    | 0, 0 => rfl
    | 0, j + 1 =>
      have heq' : x = pelem p j := heq
      refine absurd ?_ hx
      rw [heq']
      exact pelem_mem p j (Nat.lt_of_succ_lt_succ hj)
    | i + 1, 0 =>
      have heq' : pelem p i = x := heq
      refine absurd ?_ hx
      rw [← heq']
      exact pelem_mem p i (Nat.lt_of_succ_lt_succ hi)
    | i + 1, j + 1 =>
      have := ih hp (Nat.lt_of_succ_lt_succ hi) (Nat.lt_of_succ_lt_succ hj) heq
      omega

theorem pelem_pidx : ∀ {p : List ℕ} {y : ℕ}, y ∈ p → pelem p (pidx p y) = y := by
  intro p
  induction p with
  | nil => intro y h; cases h
  | cons x p ih =>
    intro y hy
    rw [pidx]
    by_cases hxy : x = y
    · rw [if_pos hxy]
      exact hxy
    · rw [if_neg hxy]
      rcases List.mem_cons.mp hy with rfl | hy
      · exact absurd rfl hxy
      · exact ih hy

theorem pidx_lt : ∀ {p : List ℕ} {y : ℕ}, y ∈ p → pidx p y < p.length := by
  intro p
  induction p with
  | nil => intro y h; cases h
  | cons x p ih =>
    intro y hy
    rw [pidx]
    by_cases hxy : x = y
    · rw [if_pos hxy]
      simp
    · rw [if_neg hxy]
      rcases List.mem_cons.mp hy with rfl | hy
      · exact absurd rfl hxy
      · simpa using ih hy

theorem pidx_pelem {p : List ℕ} (hnd : p.Nodup) {i : ℕ} (hi : i < p.length) :
    pidx p (pelem p i) = i :=
  pelem_inj hnd (pidx_lt (pelem_mem p i hi)) hi (pelem_pidx (pelem_mem p i hi))

theorem applyPerm_length (p : List ℕ) (M : List (List NNRat)) :
    (applyPerm p M).length = p.length := by
  simp [applyPerm]

theorem applyPerm_row (M : List (List NNRat)) :
    ∀ {p : List ℕ} {i : ℕ}, i < p.length → nthRow (applyPerm p M) i = nthRow M (pelem p i) := by
  intro p
  induction p with
  | nil => intro i hi; exact absurd hi (by simp)
  | cons x p ih =>
    intro i hi
    match i with
    | 0 => rfl
    | i + 1 => exact ih (Nat.lt_of_succ_lt_succ hi)

theorem calc_applyPerm {p : List ℕ} (v a : List (List NNRat)) {i j : ℕ}
    (hi : i < p.length) (hj : j < p.length) :
    calculate_min_ratio i j (applyPerm p v) (applyPerm p a) =
      calculate_min_ratio (pelem p i) (pelem p j) v a := by
  rw [calculate_min_ratio, calculate_min_ratio, applyPerm_row v hi, applyPerm_row v hj,
    applyPerm_row a hi, applyPerm_row a hj]

/-! ## Success of `build_graph` is determined pointwise -/

theorem edgeOf_isSome_iff {v a : List (List NNRat)} {p : ℕ × ℕ} :
    (edgeOf v a p).isSome = true ↔
      ∃ r, calculate_min_ratio p.1 p.2 v a = some r ∧ r ≠ 0 := by
  cases hc : calculate_min_ratio p.1 p.2 v a with
  | none => simp [edgeOf, hc]
  | some r =>
    by_cases hr : r = 0
    · subst hr
      simp [edgeOf, hc]
    · simp only [edgeOf, hc, if_neg hr]
      constructor
      · intro _
        exact ⟨r, rfl, hr⟩
      · intro _
        rfl

theorem buildEdges_isSome_iff {v a : List (List NNRat)} :
    ∀ {ps : List (ℕ × ℕ)},
      (buildEdges v a ps).isSome = true ↔ ∀ p ∈ ps, (edgeOf v a p).isSome = true := by
  intro ps
  induction ps with
  | nil => simp [buildEdges]
  | cons q ps ih =>
    rw [buildEdges]
    cases he : edgeOf v a q with
    | none =>
      simp only [Option.isSome_none, Bool.false_eq_true, false_iff]
      intro hall
      have := hall q (List.mem_cons_self _ _)
      rw [he] at this
      exact absurd this (by simp)
    | some e =>
      cases hb : buildEdges v a ps with
      | none =>
        simp only [Option.isSome_none, Bool.false_eq_true, false_iff]
        intro hall
        have : (buildEdges v a ps).isSome = true :=
          ih.mpr (fun p hp => hall p (List.mem_cons_of_mem _ hp))
        rw [hb] at this
        exact absurd this (by simp)
      | some es =>
        simp only [Option.isSome_some, true_iff]
        intro p hp
        rcases List.mem_cons.mp hp with rfl | hp
        · rw [he]; rfl
        · have : (buildEdges v a ps).isSome = true := by rw [hb]; rfl
          exact ih.mp this p hp

theorem build_graph_isSome_iff {v a : List (List NNRat)} :
    (build_graph v a).isSome = true ↔
      (buildEdges v a (edgePairs v.length)).isSome = true := by
  rw [build_graph]
  cases hb : buildEdges v a (edgePairs v.length) <;> simp

theorem build_graph_some_of_isSome {v a : List (List NNRat)}
    (h : (build_graph v a).isSome = true) : ∃ G, build_graph v a = some G := by
  cases hb : build_graph v a with
  | none => rw [hb] at h; exact absurd h (by simp)
  | some G => exact ⟨G, rfl⟩
/-! ## Transporting reachable negative cycles along a relabelling -/

theorem built_edge_ne {v a : List (List NNRat)} {G : Graph} (h : build_graph v a = some G) :
    ∀ e ∈ G.edges, e.1 ≠ e.2.1 := by
  intro e he
  obtain ⟨_, hf⟩ := build_graph_some_parts h
  obtain ⟨p, hp, hpe⟩ := forall₂_mem_right hf _ he
  obtain ⟨r, _, _, rfl⟩ := edgeOf_eq_some_iff.mp hpe
  exact (mem_edgePairs.mp hp).2.2

theorem built_edgeW_diag {v a : List (List NNRat)} {G : Graph}
    (h : build_graph v a = some G) (i : ℕ) : edgeW G i i = ⊤ := by
  unfold edgeW
  rw [List.find?_eq_none.mpr]
  intro e he
  have hne := built_edge_ne h e he
  simp only [Bool.and_eq_true, beq_iff_eq]
  rintro ⟨rfl, h2⟩
  exact hne h2.symm

theorem built_edgeW {v a : List (List NNRat)} {G : Graph} (h : build_graph v a = some G)
    {i j : ℕ} (hi : i < v.length) (hj : j < v.length) (hij : i ≠ j) :
    calculate_min_ratio i j v a = some (edgeW G i j) := by
  obtain ⟨hn, hf⟩ := build_graph_some_parts h
  obtain ⟨e, he, hpe⟩ := forall₂_mem_left hf (i, j) (mem_edgePairs.mpr ⟨hi, hj, hij⟩)
  obtain ⟨r, hr, hne, rfl⟩ := edgeOf_eq_some_iff.mp hpe
  rw [edgeW_eq_of_mem (built_WF h) he]
  exact hr

theorem walkEnd_map (f : ℕ → ℕ) : ∀ (vs : List ℕ) (x : ℕ),
    walkEnd (f x) (vs.map f) = f (walkEnd x vs)
  | [], _ => rfl
  | v :: vs, x => by
    rw [List.map_cons, walkEnd, walkEnd]
    exact walkEnd_map f vs v

theorem walkW_map {G G' : Graph} {f : ℕ → ℕ}
    (hW : ∀ i j, i < G'.n → j < G'.n → edgeW G' i j = edgeW G (f i) (f j)) :
    ∀ (vs : List ℕ) (x : ℕ), x < G'.n → (∀ y ∈ vs, y < G'.n) →
      walkW G (f x) (vs.map f) = walkW G' x vs := by
  intro vs
  induction vs with
  | nil => intro x _ _; rfl
  | cons v vs ih =>
    intro x hx hall
    have hv : v < G'.n := hall v (List.mem_cons_self _ _)
    rw [List.map_cons, walkW, walkW, hW x v hx hv,
      ih v hv (fun y hy => hall y (List.mem_cons_of_mem _ hy))]

theorem negCycleReachable_transport {G G' : Graph} (hWF' : G'.WF) (hn' : 0 < G'.n)
    {f : ℕ → ℕ} (hf0 : f 0 = 0)
    (hW : ∀ i j, i < G'.n → j < G'.n → edgeW G' i j = edgeW G (f i) (f j)) :
    NegCycleReachable G' → NegCycleReachable G := by
  rintro ⟨u, cs, ⟨vs, hvend, hvne⟩, hcne, hcend, hclt⟩
  have hvsb : ∀ y ∈ vs, y < G'.n := walk_vertices_lt hWF' vs 0 hvne
  have hu : u < G'.n := by
    rcases walkEnd_mem_or_eq 0 vs with h | h
    · exact hvsb _ (hvend ▸ h)
    · rw [← hvend, h]
      exact hn'
  have hcsne_top : walkW G' u cs ≠ ⊤ := ne_top_of_lt hclt
  have hcsb : ∀ y ∈ cs, y < G'.n := walk_vertices_lt hWF' cs u hcsne_top
  refine ⟨f u, cs.map f, ⟨vs.map f, ?_, ?_⟩, ?_, ?_, ?_⟩
  · rw [← hf0, walkEnd_map, hvend]
  · rw [← hf0, walkW_map hW vs 0 hn' hvsb]
    exact hvne
  · simpa using hcne
  · rw [walkEnd_map, hcend]
  · rw [walkW_map hW cs u hu hcsb]
    exact hclt
theorem relabel_pareto (v a : List (List NNRat)) (p : List ℕ)
    (hn : 0 < v.length) (hperm : p.Perm (List.range v.length)) (hp0 : pelem p 0 = 0) :
    is_pareto_efficient (applyPerm p v) (applyPerm p a) = is_pareto_efficient v a := by
  have hplen : p.length = v.length := by simpa using hperm.length_eq
  have hnodup : p.Nodup := hperm.nodup_iff.mpr (List.nodup_range _)
  have hmem_range : ∀ x, x ∈ p ↔ x < v.length := fun x => by
    rw [hperm.mem_iff, List.mem_range]
  have hpel_lt : ∀ i, i < v.length → pelem p i < v.length := fun i hi =>
    (hmem_range _).mp (pelem_mem p i (by rw [hplen]; exact hi))
  have hlen' : (applyPerm p v).length = v.length := by rw [applyPerm_length, hplen]
  have hcalc : ∀ i j, i < v.length → j < v.length →
      calculate_min_ratio i j (applyPerm p v) (applyPerm p a) =
        calculate_min_ratio (pelem p i) (pelem p j) v a :=
    fun i j hi hj => calc_applyPerm v a (by rw [hplen]; exact hi) (by rw [hplen]; exact hj)
  have hiff : (build_graph (applyPerm p v) (applyPerm p a)).isSome = true ↔
      (build_graph v a).isSome = true := by
    rw [build_graph_isSome_iff, build_graph_isSome_iff, hlen',
      buildEdges_isSome_iff, buildEdges_isSome_iff]
    constructor
    · intro h q hq
      obtain ⟨hq1, hq2, hq3⟩ := mem_edgePairs.mp hq
      have hq1m : q.1 ∈ p := (hmem_range _).mpr hq1
      have hq2m : q.2 ∈ p := (hmem_range _).mpr hq2
      have hi0 : pidx p q.1 < v.length := by rw [← hplen]; exact pidx_lt hq1m
      have hj0 : pidx p q.2 < v.length := by rw [← hplen]; exact pidx_lt hq2m
      have hne : pidx p q.1 ≠ pidx p q.2 := by
        intro heq
        apply hq3
        rw [← pelem_pidx hq1m, ← pelem_pidx hq2m, heq]
      have hmem : ((pidx p q.1, pidx p q.2) : ℕ × ℕ) ∈ edgePairs v.length :=
        mem_edgePairs.mpr ⟨hi0, hj0, hne⟩
      have hs := h _ hmem
      rw [edgeOf_isSome_iff] at hs
      rw [show ((pidx p q.1, pidx p q.2) : ℕ × ℕ).1 = pidx p q.1 from rfl,
        show ((pidx p q.1, pidx p q.2) : ℕ × ℕ).2 = pidx p q.2 from rfl,
        hcalc _ _ hi0 hj0, pelem_pidx hq1m, pelem_pidx hq2m] at hs
      rw [edgeOf_isSome_iff]
      exact hs
    · intro h q hq
      obtain ⟨hq1, hq2, hq3⟩ := mem_edgePairs.mp hq
      have hne : pelem p q.1 ≠ pelem p q.2 := fun heq =>
        hq3 (pelem_inj hnodup (by rw [hplen]; exact hq1) (by rw [hplen]; exact hq2) heq)
      have hmem : ((pelem p q.1, pelem p q.2) : ℕ × ℕ) ∈ edgePairs v.length :=
        mem_edgePairs.mpr ⟨hpel_lt _ hq1, hpel_lt _ hq2, hne⟩
      have hs := h _ hmem
      rw [edgeOf_isSome_iff] at hs
      rw [edgeOf_isSome_iff, hcalc _ _ hq1 hq2]
      exact hs
  cases hb : build_graph v a with
  | none =>
    have hnone : build_graph (applyPerm p v) (applyPerm p a) = none := by
      cases hb' : build_graph (applyPerm p v) (applyPerm p a) with
      | none => rfl
      | some G' =>
        have := hiff.mp (by rw [hb']; rfl)
        rw [hb] at this
        exact absurd this (by simp)
    simp only [is_pareto_efficient, hb, hnone]
  | some G =>
    obtain ⟨G', hb'⟩ := build_graph_some_of_isSome (hiff.mpr (by rw [hb]; rfl))
    have hWF := built_WF hb
    have hWF' := built_WF hb'
    have hGn : G.n = v.length := (build_graph_some_parts hb).1
    have hG'n : G'.n = v.length := by
      rw [(build_graph_some_parts hb').1, hlen']
    have hn_G : 0 < G.n := by rw [hGn]; exact hn
    have hn_G' : 0 < G'.n := by rw [hG'n]; exact hn
    have hWrel : ∀ i j, i < G'.n → j < G'.n →
        edgeW G' i j = edgeW G (pelem p i) (pelem p j) := by
      intro i j hi hj
      rw [hG'n] at hi hj
      by_cases hij : i = j
      · subst hij
        rw [built_edgeW_diag hb' i, built_edgeW_diag hb (pelem p i)]
      · have h1 := built_edgeW hb' (by rw [hlen']; exact hi) (by rw [hlen']; exact hj) hij
        have h2 := built_edgeW hb (hpel_lt i hi) (hpel_lt j hj)
          (fun heq => hij (pelem_inj hnodup (by rw [hplen]; exact hi)
            (by rw [hplen]; exact hj) heq))
        rw [hcalc i j hi hj, h2] at h1
        exact (Option.some.inj h1).symm
    have hWrel' : ∀ i j, i < G.n → j < G.n →
        edgeW G i j = edgeW G' (pidx p i) (pidx p j) := by
      intro i j hi hj
      rw [hGn] at hi hj
      have hi_mem : i ∈ p := (hmem_range i).mpr hi
      have hj_mem : j ∈ p := (hmem_range j).mpr hj
      have h1 := hWrel (pidx p i) (pidx p j)
        (by rw [hG'n, ← hplen]; exact pidx_lt hi_mem)
        (by rw [hG'n, ← hplen]; exact pidx_lt hj_mem)
      rw [pelem_pidx hi_mem, pelem_pidx hj_mem] at h1
      exact h1.symm
    have hpidx0 : pidx p 0 = 0 := by
      have h0len : 0 < p.length := by rw [hplen]; exact hn
      have := pidx_pelem hnodup h0len
      rw [hp0] at this
      exact this
    have hcyc_iff : NegCycleReachable G' ↔ NegCycleReachable G :=
      ⟨negCycleReachable_transport hWF' hn_G' hp0 hWrel,
        negCycleReachable_transport hWF hn_G hpidx0 hWrel'⟩
    have hhas : has_negative_cycle G' = has_negative_cycle G := by
      have hiff2 : has_negative_cycle G' = true ↔ has_negative_cycle G = true := by
        rw [bf_correct hWF' hn_G', bf_correct hWF hn_G]
        exact hcyc_iff
      cases hx : has_negative_cycle G' <;> cases hy : has_negative_cycle G <;> simp_all
    simp only [is_pareto_efficient, hb, hb', hhas]
/-! ## Reciprocity of opposite min-ratios (claim C9 machinery) -/

theorem qualIdx_symm {ai aj : List NNRat} (hlen : ai.length = aj.length) :
    qualIdx aj ai = qualIdx ai aj := by
  rw [qualIdx, qualIdx, ← hlen]
  exact List.filter_congr (fun k _ => by rw [Bool.and_comm])

theorem cand_swap (vi vj ai aj : List NNRat) (k : ℕ) :
    cand vj vi aj ai k = (cand vi vj ai aj k)⁻¹ := by
  rw [cand, cand, inv_div]

theorem coe_pos_iff {q : NNRat} : (0 : WithTop NNRat) < (q : WithTop NNRat) ↔ 0 < q := by
  rw [show (0 : WithTop NNRat) = ((0 : NNRat) : WithTop NNRat) from rfl, WithTop.coe_lt_coe]

theorem min_ratio_reciprocal (i j : ℕ) (v a : List (List NNRat)) (r r' : WithTop NNRat)
    (hlen : (nthRow a i).length = (nthRow a j).length)
    (hij : calculate_min_ratio i j v a = some r)
    (hji : calculate_min_ratio j i v a = some r')
    (hr_top : r ≠ ⊤) (hr'_top : r' ≠ ⊤) (hr_pos : 0 < r) (hr'_pos : 0 < r') :
    r * r' ≤ 1 ∧
      (r * r' = 1 → ∀ k ∈ qualIdx (nthRow a i) (nthRow a j),
        ∀ k' ∈ qualIdx (nthRow a i) (nthRow a j),
          cand (nthRow v i) (nthRow v j) (nthRow a i) (nthRow a j) k =
            cand (nthRow v i) (nthRow v j) (nthRow a i) (nthRow a j) k') := by
  rw [calculate_min_ratio] at hij hji
  obtain ⟨hdij, hrij⟩ := minRatioRows_some_parts hij
  obtain ⟨hdji, hrji⟩ := minRatioRows_some_parts hji
  rw [qualIdx_symm hlen] at hrji
  have hswap : ∀ k, cand (nthRow v j) (nthRow v i) (nthRow a j) (nthRow a i) k =
      (cand (nthRow v i) (nthRow v j) (nthRow a i) (nthRow a j) k)⁻¹ :=
    cand_swap _ _ _ _
  subst hrij
  subst hrji
  have hglb_ij : ∀ k ∈ qualIdx (nthRow a i) (nthRow a j),
      minFold ((qualIdx (nthRow a i) (nthRow a j)).map
        (fun k => ((cand (nthRow v i) (nthRow v j) (nthRow a i) (nthRow a j) k : NNRat) : WithTop NNRat))) ≤
        ((cand (nthRow v i) (nthRow v j) (nthRow a i) (nthRow a j) k : NNRat) : WithTop NNRat) :=
    fun k hk => minFold_le (List.mem_map_of_mem _ hk)
  have hglb_ji : ∀ k ∈ qualIdx (nthRow a i) (nthRow a j),
      minFold ((qualIdx (nthRow a i) (nthRow a j)).map
        (fun k => ((cand (nthRow v j) (nthRow v i) (nthRow a j) (nthRow a i) k : NNRat) : WithTop NNRat))) ≤
        (((cand (nthRow v i) (nthRow v j) (nthRow a i) (nthRow a j) k)⁻¹ : NNRat) : WithTop NNRat) :=
    fun k hk => by
      have := minFold_le (l := (qualIdx (nthRow a i) (nthRow a j)).map
        (fun k => ((cand (nthRow v j) (nthRow v i) (nthRow a j) (nthRow a i) k : NNRat) : WithTop NNRat)))
        (List.mem_map_of_mem _ hk)
      rwa [hswap k] at this
  have hpos_ij : ∀ k ∈ qualIdx (nthRow a i) (nthRow a j),
      0 < cand (nthRow v i) (nthRow v j) (nthRow a i) (nthRow a j) k := by
    intro k hk
    have h1 := lt_of_lt_of_le hr_pos (hglb_ij k hk)
    exact coe_pos_iff.mp h1
  rcases minFold_eq_top_or_mem ((qualIdx (nthRow a i) (nthRow a j)).map
      (fun k => ((cand (nthRow v i) (nthRow v j) (nthRow a i) (nthRow a j) k : NNRat) : WithTop NNRat)))
    with htop | hmem
  · exact absurd htop hr_top
  obtain ⟨k0, hk0Q, hk0⟩ := List.mem_map.mp hmem
  rcases minFold_eq_top_or_mem ((qualIdx (nthRow a i) (nthRow a j)).map
      (fun k => ((cand (nthRow v j) (nthRow v i) (nthRow a j) (nthRow a i) k : NNRat) : WithTop NNRat)))
    with htop' | hmem'
  · exact absurd htop' hr'_top
  obtain ⟨k1, hk1Q, hk1⟩ := List.mem_map.mp hmem'
  rw [hswap k1] at hk1
  have hk0_pos := hpos_ij k0 hk0Q
  have hk1_pos := hpos_ij k1 hk1Q
  constructor
  · rw [← hk0]
    calc ((cand (nthRow v i) (nthRow v j) (nthRow a i) (nthRow a j) k0 : NNRat) : WithTop NNRat) *
          minFold ((qualIdx (nthRow a i) (nthRow a j)).map
            (fun k => ((cand (nthRow v j) (nthRow v i) (nthRow a j) (nthRow a i) k : NNRat) : WithTop NNRat)))
        ≤ ((cand (nthRow v i) (nthRow v j) (nthRow a i) (nthRow a j) k0 : NNRat) : WithTop NNRat) *
          (((cand (nthRow v i) (nthRow v j) (nthRow a i) (nthRow a j) k0)⁻¹ : NNRat) : WithTop NNRat) :=
          mul_le_mul_left' (hglb_ji k0 hk0Q) _
      _ = (((cand (nthRow v i) (nthRow v j) (nthRow a i) (nthRow a j) k0 *
            (cand (nthRow v i) (nthRow v j) (nthRow a i) (nthRow a j) k0)⁻¹ : NNRat)) : WithTop NNRat) := by
          rw [WithTop.coe_mul]
      _ = 1 := by
          rw [mul_inv_cancel₀ (ne_of_gt hk0_pos)]
          rfl
  · intro heq k hk k' hk'
    rw [← hk0, ← hk1, ← WithTop.coe_mul,
      show (1 : WithTop NNRat) = ((1 : NNRat) : WithTop NNRat) from rfl,
      WithTop.coe_inj] at heq
    have hq01 : cand (nthRow v i) (nthRow v j) (nthRow a i) (nthRow a j) k0 =
        cand (nthRow v i) (nthRow v j) (nthRow a i) (nthRow a j) k1 := by
      have h2 := congrArg (· * cand (nthRow v i) (nthRow v j) (nthRow a i) (nthRow a j) k1) heq
      simpa [mul_assoc, inv_mul_cancel₀ (ne_of_gt hk1_pos)] using h2
    have hall : ∀ l ∈ qualIdx (nthRow a i) (nthRow a j),
        cand (nthRow v i) (nthRow v j) (nthRow a i) (nthRow a j) l =
          cand (nthRow v i) (nthRow v j) (nthRow a i) (nthRow a j) k0 := by
      intro l hl
      have hlow : cand (nthRow v i) (nthRow v j) (nthRow a i) (nthRow a j) k0 ≤
          cand (nthRow v i) (nthRow v j) (nthRow a i) (nthRow a j) l := by
        have := hglb_ij l hl
        rw [← hk0] at this
        exact WithTop.coe_le_coe.mp this
      have hhigh : cand (nthRow v i) (nthRow v j) (nthRow a i) (nthRow a j) l ≤
          cand (nthRow v i) (nthRow v j) (nthRow a i) (nthRow a j) k1 := by
        have := hglb_ji l hl
        rw [← hk1] at this
        have hinv := WithTop.coe_le_coe.mp this
        exact (inv_le_inv₀ hk1_pos (hpos_ij l hl)).mp hinv
      exact le_antisymm (hq01 ▸ hhigh) hlow
    rw [hall k hk, hall k' hk']
/-! ## Claims -/

/-- Claim C1, counterexample to the claim as stated.  The claim asserts that
`is_pareto_efficient` returns `true` exactly when **no** negative cycle exists
in the exchange graph.  On this valid input (agent 0 holds only good 0, agents
1 and 2 share goods 1 and 2 at unequal rates), the call returns `true`, yet
the built graph contains the negative cycle `1 → 2 → 1` (its total log-weight
is `2·log10(1/2) < 0`): the cycle is invisible to the relaxation because
vertex 1 and 2 are only connected to the source 0 by `+∞`-weight edges. -/
theorem c1_counterexample :
    build_graph [[1, 1, 1], [1, 10, 20], [1, 20, 10]]
        [[1, 0, 0], [0, 1/2, 1/2], [0, 1/2, 1/2]] =
      some ⟨3, [(0, 1, ⊤), (0, 2, ⊤), (1, 0, ⊤), (1, 2, ((1/2 : NNRat) : WithTop NNRat)),
        (2, 0, ⊤), (2, 1, ((1/2 : NNRat) : WithTop NNRat))]⟩ ∧
    is_pareto_efficient [[1, 1, 1], [1, 10, 20], [1, 20, 10]]
        [[1, 0, 0], [0, 1/2, 1/2], [0, 1/2, 1/2]] = some true ∧
    NegCycleLog ⟨3, [(0, 1, ⊤), (0, 2, ⊤), (1, 0, ⊤), (1, 2, ((1/2 : NNRat) : WithTop NNRat)),
        (2, 0, ⊤), (2, 1, ((1/2 : NNRat) : WithTop NNRat))]⟩ := by
  have hbuild : build_graph [[1, 1, 1], [1, 10, 20], [1, 20, 10]]
      [[1, 0, 0], [0, 1/2, 1/2], [0, 1/2, 1/2]] =
      some ⟨3, [(0, 1, ⊤), (0, 2, ⊤), (1, 0, ⊤), (1, 2, ((1/2 : NNRat) : WithTop NNRat)),
        (2, 0, ⊤), (2, 1, ((1/2 : NNRat) : WithTop NNRat))]⟩ := by
    with_unfolding_all decide
  refine ⟨hbuild, by with_unfolding_all decide, ?_⟩
  rw [negCycleLog_iff (built_WF hbuild)]
  refine ⟨1, [2, 1], ?_, ?_, ?_⟩
  · decide
  · decide
  · show walkW _ 1 [2, 1] < 1
    with_unfolding_all decide

/-- Claim C1, amended: for every valid input on which the call returns
normally, `is_pareto_efficient` returns `true` iff no negative cycle **whose
vertices are reachable from vertex `0` through finite-weight walks** exists in
the exchange graph (negativity is the strict negativity of the summed `log10`
edge weights).  The original claim must be weakened to reachable cycles:
detection relaxes from source `0` only. -/
theorem c1_theorem (v a : List (List NNRat)) (G : Graph)
    (hb : build_graph v a = some G) (hn : 0 < v.length) :
    is_pareto_efficient v a = some true ↔ ¬ NegCycleReachableLog G := by
  have hWF := built_WF hb
  have hGn := (build_graph_some_parts hb).1
  have hnG : 0 < G.n := by rw [hGn]; exact hn
  rw [negCycleReachableLog_iff hWF, ← bf_correct hWF hnG]
  simp only [is_pareto_efficient, hb]
  cases hx : has_negative_cycle G <;> simp [hx]

/-- Witness for the amended claim C1 at scenario D of the spec:
the build succeeds, and since the call returns `true`, no reachable
negative-log-weight cycle exists in the built graph. -/
theorem c1_witness :
    build_graph [[10, 20], [30, 40]] [[1, 0], [0, 1]] =
      some ⟨2, [(0, 1, ⊤), (1, 0, ⊤)]⟩ ∧
    ¬ NegCycleReachableLog ⟨2, [(0, 1, ⊤), (1, 0, ⊤)]⟩ := by
  have hbuild : build_graph [[10, 20], [30, 40]] [[1, 0], [0, 1]] =
      some ⟨2, [(0, 1, ⊤), (1, 0, ⊤)]⟩ := by
    with_unfolding_all decide
  refine ⟨hbuild, ?_⟩
  exact (c1_theorem [[10, 20], [30, 40]] [[1, 0], [0, 1]] _ hbuild (by decide)).mp
    (by with_unfolding_all decide)

/-- Claim C2, counterexample to the claim as stated.  The claim asserts that
`calculate_min_ratio` always *returns* the minimum qualifying candidate ratio.
With `valuations[1][0] = 0` while both allocations are non-zero, the candidate
denominator `valuations[1][0] * allocation[1][0]` is `0` and Python raises
`ZeroDivisionError` (modelled by `none`): no value is returned at all. -/
theorem c2_counterexample :
    calculate_min_ratio 0 1 [[3], [0]] [[1], [1]] = none := by
  with_unfolding_all decide

/-- Claim C2, amended: for every pair `i ≠ j` such that no qualifying good has
a zero denominator `valuations[j][k] * allocation[j][k]` (the case in which
the division raises), `calculate_min_ratio` returns `some r` where `r` is the
minimum of the candidate ratios over the qualifying goods — a lower bound on
every candidate, attained at some qualifying good when one exists — and
`r = +∞` when no good qualifies. -/
theorem c2_theorem (i j : ℕ) (v a : List (List NNRat))
    (h : ∀ k ∈ qualIdx (nthRow a i) (nthRow a j),
      entry (nthRow v j) k * entry (nthRow a j) k ≠ 0) :
    ∃ r, calculate_min_ratio i j v a = some r ∧
      (∀ k ∈ qualIdx (nthRow a i) (nthRow a j),
        r ≤ ((cand (nthRow v i) (nthRow v j) (nthRow a i) (nthRow a j) k : NNRat) : WithTop NNRat)) ∧
      (qualIdx (nthRow a i) (nthRow a j) = [] → r = ⊤) ∧
      (qualIdx (nthRow a i) (nthRow a j) ≠ [] →
        ∃ k ∈ qualIdx (nthRow a i) (nthRow a j),
          r = ((cand (nthRow v i) (nthRow v j) (nthRow a i) (nthRow a j) k : NNRat) : WithTop NNRat)) := by
  rw [calculate_min_ratio, minRatioRows_eq_some h]
  refine ⟨_, rfl, ?_, ?_, ?_⟩
  · intro k hk
    exact minFold_le (List.mem_map_of_mem _ hk)
  · intro hQ
    rw [hQ]
    rfl
  · intro hQ
    rcases minFold_eq_top_or_mem ((qualIdx (nthRow a i) (nthRow a j)).map
        (fun k => ((cand (nthRow v i) (nthRow v j) (nthRow a i) (nthRow a j) k : NNRat) : WithTop NNRat)))
      with htop | hmem
    · obtain ⟨k0, hk0⟩ := List.exists_mem_of_ne_nil _ hQ
      have hle := minFold_le (List.mem_map_of_mem
        (fun k => ((cand (nthRow v i) (nthRow v j) (nthRow a i) (nthRow a j) k : NNRat) : WithTop NNRat)) hk0)
      rw [htop] at hle
      exact absurd (top_le_iff.mp hle) (WithTop.coe_ne_top)
    · obtain ⟨k0, hk0Q, hk0⟩ := List.mem_map.mp hmem
      exact ⟨k0, hk0Q, hk0.symm⟩

/-- Witness for the amended claim C2 at scenario C of the spec: the returned
ratio `1/2` is a lower bound on both candidates (`1/2` at good 0, `2` at
good 1) and is attained. -/
theorem c2_witness :
    calculate_min_ratio 0 1 [[10, 20], [20, 10]] [[1/2, 1/2], [1/2, 1/2]] =
      some ((1/2 : NNRat) : WithTop NNRat) ∧
    ((1/2 : NNRat) : WithTop NNRat) ≤
      ((cand [10, 20] [20, 10] [1/2, 1/2] [1/2, 1/2] 0 : NNRat) : WithTop NNRat) ∧
    ((1/2 : NNRat) : WithTop NNRat) ≤
      ((cand [10, 20] [20, 10] [1/2, 1/2] [1/2, 1/2] 1 : NNRat) : WithTop NNRat) := by
  obtain ⟨r, hr, hglb, _, _⟩ := c2_theorem 0 1 [[10, 20], [20, 10]] [[1/2, 1/2], [1/2, 1/2]]
    (by with_unfolding_all decide)
  have hcalc : calculate_min_ratio 0 1 [[10, 20], [20, 10]] [[1/2, 1/2], [1/2, 1/2]] =
      some ((1/2 : NNRat) : WithTop NNRat) := by with_unfolding_all decide
  have hr2 : r = ((1/2 : NNRat) : WithTop NNRat) := by
    rw [hr] at hcalc
    exact Option.some.inj hcalc
  subst hr2
  exact ⟨hcalc, hglb 0 (by with_unfolding_all decide), hglb 1 (by with_unfolding_all decide)⟩

/-- Claim C3, counterexample to the claim as stated.  The claim asserts that
on a zero qualifying candidate ratio, `build_graph` assigns the weight `-∞`
and completes without error.  In fact Python's `math.log10(0.0)` raises
`ValueError: math domain error` (it does not return `-inf`), so `build_graph`
raises instead of completing: here `calculate_min_ratio(0, 1) = 0` (a zero
valuation with non-zero allocations on both sides) and the build yields no
graph. -/
theorem c3_counterexample :
    calculate_min_ratio 0 1 [[0], [1]] [[1], [1]] = some 0 ∧
    build_graph [[0], [1]] [[1], [1]] = none := by
  constructor <;> with_unfolding_all decide

/-- Claim C3, amended: whenever some pair `i ≠ j` of valid agent indices has
a zero minimum ratio (for example a zero valuation on a good co-held by both
agents), `build_graph` raises (returns no graph): the zero ratio reaches
`math.log10`, which rejects it with a domain error rather than producing
`-∞`. -/
theorem c3_theorem (v a : List (List NNRat)) (i j : ℕ) (hi : i < v.length)
    (hj : j < v.length) (hij : i ≠ j)
    (h0 : calculate_min_ratio i j v a = some 0) : build_graph v a = none := by
  have hmem : ((i, j) : ℕ × ℕ) ∈ edgePairs v.length := mem_edgePairs.mpr ⟨hi, hj, hij⟩
  have hnone : edgeOf v a (i, j) = none := by
    simp [edgeOf, h0]
  rw [build_graph, buildEdges_none_of_mem hmem hnone]

/-- Witness for the amended claim C3 on a fresh concrete input with a zero
valuation: the whole build raises. -/
theorem c3_witness : build_graph [[0, 7], [2, 7]] [[1, 0], [1, 0]] = none := by
  exact c3_theorem [[0, 7], [2, 7]] [[1, 0], [1, 0]] 0 1 (by decide) (by decide)
    (by decide) (by with_unfolding_all decide)

/-- Claim C4, counterexample to the claim as stated.  The claim's parenthesis
asserts that even without any hypothesis on the valuations, the zero-filter
on allocations alone precludes division by zero.  It does not: with
`valuations[1][0] = 0` and both allocations non-zero at good 0, the evaluated
denominator `valuations[1][0] * allocation[1][0]` is zero and the call raises
`ZeroDivisionError` (modelled by `none`). -/
theorem c4_counterexample :
    calculate_min_ratio 0 1 [[1], [0]] [[1], [1]] = none := by
  with_unfolding_all decide

/-- Claim C4, amended: under the precondition that `valuations[j][k] ≠ 0`
whenever `allocation[j][k] ≠ 0` (for indices inside row `j`), no division by
zero occurs inside `calculate_min_ratio`: every evaluated denominator is
non-zero and the call returns a value. -/
theorem c4_theorem (i j : ℕ) (v a : List (List NNRat))
    (h : ∀ k, k < (nthRow a j).length →
      entry (nthRow a j) k ≠ 0 → entry (nthRow v j) k ≠ 0) :
    (calculate_min_ratio i j v a).isSome = true := by
  rw [calculate_min_ratio, minRatioRows_eq_some ?_]
  · rfl
  · intro k hk
    obtain ⟨hk1, hk2, hk3⟩ := mem_qualIdx.mp hk
    have hklen : k < (nthRow a j).length := by
      by_contra hge
      exact hk3 (entry_eq_zero_of_le _ k (not_lt.mp hge))
    exact mul_ne_zero (h k hklen hk3) hk3

/-- Witness for the amended claim C4: with non-zero valuations wherever the
allocation is non-zero, the call returns normally. -/
theorem c4_witness : (calculate_min_ratio 0 1 [[1], [2]] [[1], [1]]).isSome = true := by
  exact c4_theorem 0 1 [[1], [2]] [[1], [1]] (by with_unfolding_all decide)

/-- Claim C5: with exactly one agent, `is_pareto_efficient` returns `true`
regardless of row contents — there are no ordered pairs, so the graph has one
vertex and no edges, and no negative cycle can be found. -/
theorem c5_theorem (v a : List (List NNRat)) (h : v.length = 1) :
    is_pareto_efficient v a = some true := by
  have hpairs : edgePairs v.length = [] := by rw [h]; rfl
  have hbuild : build_graph v a = some ⟨v.length, []⟩ := by
    rw [build_graph, hpairs]
    rfl
  simp only [is_pareto_efficient, hbuild]
  rfl

/-- Witness for claim C5 at a one-agent input with nontrivial rows. -/
theorem c5_witness : is_pareto_efficient [[5, 0]] [[0, 9]] = some true := by
  exact c5_theorem [[5, 0]] [[0, 9]] (by decide)
/-- Claim C6: the built graph is always complete over `{0, …, n-1}` with
`n = len(valuations)`: whenever `build_graph` returns a graph, its vertex
count is `n`; every edge record joins two distinct in-range vertices and
stores exactly the ratio `calculate_min_ratio(i, j, …)` (whose `log10` is the
stored weight, applied in the negative-cycle reading); every ordered pair
`i ≠ j` of in-range vertices has an edge; and the edge for a pair is unique.
Freshness/statelessness holds because the embedding is a pure function of its
arguments. -/
theorem c6_theorem (v a : List (List NNRat)) (G : Graph)
    (h : build_graph v a = some G) :
    G.n = v.length ∧
    (∀ i j r, (i, j, r) ∈ G.edges →
      i < v.length ∧ j < v.length ∧ i ≠ j ∧
        calculate_min_ratio i j v a = some r ∧ edgeW G i j = r) ∧
    (∀ i j, i < v.length → j < v.length → i ≠ j →
      ∃ r, (i, j, r) ∈ G.edges ∧ calculate_min_ratio i j v a = some r) ∧
    (∀ i j r r', (i, j, r) ∈ G.edges → (i, j, r') ∈ G.edges → r = r') := by
  have hWF := built_WF h
  refine ⟨(build_graph_some_parts h).1, ?_, ?_, ?_⟩
  · intro i j r hmem
    obtain ⟨⟨hi, hj, hij⟩, hcalc, _⟩ := (built_mem_iff h).mp hmem
    exact ⟨hi, hj, hij, hcalc, edgeW_eq_of_mem hWF hmem⟩
  · intro i j hi hj hij
    obtain ⟨hn, hf⟩ := build_graph_some_parts h
    obtain ⟨e, he, hpe⟩ := forall₂_mem_left hf (i, j) (mem_edgePairs.mpr ⟨hi, hj, hij⟩)
    obtain ⟨r, hr, _, rfl⟩ := edgeOf_eq_some_iff.mp hpe
    exact ⟨r, he, hr⟩
  · intro i j r r' h1 h2
    have := nodup_keys_unique hWF.2 h1 h2 rfl
    simpa using this

/-- Witness for claim C6 at scenario D: the graph has two vertices, the edge
`0 → 1` is present with the `+∞` ratio returned by `calculate_min_ratio`
(the agents co-hold no good), and the stored weight agrees. -/
theorem c6_witness :
    (⟨2, [(0, 1, ⊤), (1, 0, ⊤)]⟩ : Graph).n = 2 ∧
    calculate_min_ratio 0 1 [[10, 20], [30, 40]] [[1, 0], [0, 1]] = some ⊤ ∧
    edgeW ⟨2, [(0, 1, ⊤), (1, 0, ⊤)]⟩ 0 1 = ⊤ := by
  have hbuild : build_graph [[10, 20], [30, 40]] [[1, 0], [0, 1]] =
      some ⟨2, [(0, 1, ⊤), (1, 0, ⊤)]⟩ := by
    with_unfolding_all decide
  obtain ⟨hn, hchar, _, _⟩ := c6_theorem [[10, 20], [30, 40]] [[1, 0], [0, 1]] _ hbuild
  obtain ⟨_, _, _, hcalc, hw⟩ := hchar 0 1 ⊤ (List.mem_cons_self _ _)
  exact ⟨hn, hcalc, hw⟩

/-- Claim C7, counterexample to the claim as stated.  Swapping agents 0 and 1
(the same permutation `[1, 0, 2]` applied to the rows of both matrices)
changes the verdict from `true` to `false`: the negative cycle between the
two agents that co-hold goods is reachable from vertex 0 after the swap but
not before. -/
theorem c7_counterexample :
    ([1, 0, 2] : List ℕ).Perm (List.range 3) ∧
    applyPerm [1, 0, 2] [[1, 1, 1], [1, 10, 20], [1, 20, 10]] =
      [[1, 10, 20], [1, 1, 1], [1, 20, 10]] ∧
    applyPerm [1, 0, 2] [[1, 0, 0], [0, 1/2, 1/2], [0, 1/2, 1/2]] =
      [[0, 1/2, 1/2], [1, 0, 0], [0, 1/2, 1/2]] ∧
    is_pareto_efficient [[1, 1, 1], [1, 10, 20], [1, 20, 10]]
      [[1, 0, 0], [0, 1/2, 1/2], [0, 1/2, 1/2]] = some true ∧
    is_pareto_efficient [[1, 10, 20], [1, 1, 1], [1, 20, 10]]
      [[0, 1/2, 1/2], [1, 0, 0], [0, 1/2, 1/2]] = some false := by
  refine ⟨?_, ?_, ?_, ?_, ?_⟩
  · decide
  · with_unfolding_all decide
  · with_unfolding_all decide
  · with_unfolding_all decide
  · with_unfolding_all decide

/-- Claim C7, amended: permuting the rows of both matrices with the same
permutation leaves the result of `is_pareto_efficient` unchanged **provided
the permutation fixes agent 0** (the relaxation source).  A permutation that
moves agent 0 can change the verdict, as the counterexample shows. -/
theorem c7_theorem (v a : List (List NNRat)) (p : List ℕ)
    (hn : 0 < v.length) (hperm : p.Perm (List.range v.length))
    (hp0 : pelem p 0 = 0) :
    is_pareto_efficient (applyPerm p v) (applyPerm p a) = is_pareto_efficient v a :=
  relabel_pareto v a p hn hperm hp0

/-- Witness for the amended claim C7: swapping agents 1 and 2 (fixing
agent 0) preserves the verdict on a concrete three-agent input. -/
theorem c7_witness :
    is_pareto_efficient
        (applyPerm [0, 2, 1] [[1, 2], [3, 4], [5, 6]])
        (applyPerm [0, 2, 1] [[1, 0], [0, 1], [1, 1]]) =
      is_pareto_efficient [[1, 2], [3, 4], [5, 6]] [[1, 0], [0, 1], [1, 1]] := by
  exact c7_theorem [[1, 2], [3, 4], [5, 6]] [[1, 0], [0, 1], [1, 1]] [0, 2, 1]
    (by decide) (by decide) (by decide)

/-- Claim C8: the two concrete scenarios from the spec.  On
`valuations=[[10,20],[20,10]]`, `allocation=[[1/2,1/2],[1/2,1/2]]` the answer
is `false`; on `valuations=[[10,20],[30,40]]`, `allocation=[[1,0],[0,1]]` it
is `true`. -/
theorem c8_theorem :
    is_pareto_efficient [[10, 20], [20, 10]] [[1/2, 1/2], [1/2, 1/2]] = some false ∧
    is_pareto_efficient [[10, 20], [30, 40]] [[1, 0], [0, 1]] = some true := by
  constructor <;> with_unfolding_all decide

/-- Claim C9: for every ordered pair `i ≠ j` (on a rectangular allocation)
whose two opposite min-ratios are returned, finite and positive, their
product is at most `1`; equivalently the 2-cycle `i → j → i` has total
log-weight `log10 r + log10 r' ≤ 0`; and the product equals `1` only when all
qualifying candidate ratios between `i` and `j` coincide. -/
theorem c9_theorem (i j : ℕ) (v a : List (List NNRat)) (r r' : WithTop NNRat)
    (hlen : (nthRow a i).length = (nthRow a j).length)
    (hij : calculate_min_ratio i j v a = some r)
    (hji : calculate_min_ratio j i v a = some r')
    (hr_top : r ≠ ⊤) (hr'_top : r' ≠ ⊤) (hr_pos : 0 < r) (hr'_pos : 0 < r') :
    r * r' ≤ 1 ∧ elog10 r + elog10 r' ≤ 0 ∧
      (r * r' = 1 → ∀ k ∈ qualIdx (nthRow a i) (nthRow a j),
        ∀ k' ∈ qualIdx (nthRow a i) (nthRow a j),
          cand (nthRow v i) (nthRow v j) (nthRow a i) (nthRow a j) k =
            cand (nthRow v i) (nthRow v j) (nthRow a i) (nthRow a j) k') := by
  obtain ⟨h1, h2⟩ := min_ratio_reciprocal i j v a r r' hlen hij hji
    hr_top hr'_top hr_pos hr'_pos
  refine ⟨h1, ?_, h2⟩
  rw [← elog10_mul hr_pos.ne' hr'_pos.ne']
  exact (elog10_nonpos_iff (mul_ne_zero hr_pos.ne' hr'_pos.ne')).mpr h1

/-- Witness for claim C9 at scenario C: both min-ratios are `1/2`, their
product `1/4` is at most `1`, and the 2-cycle log-weight is nonpositive. -/
theorem c9_witness :
    ((1/2 : NNRat) : WithTop NNRat) * ((1/2 : NNRat) : WithTop NNRat) ≤ 1 ∧
    elog10 ((1/2 : NNRat) : WithTop NNRat) + elog10 ((1/2 : NNRat) : WithTop NNRat) ≤ 0 := by
  obtain ⟨h1, h2, _⟩ := c9_theorem 0 1 [[10, 20], [20, 10]] [[1/2, 1/2], [1/2, 1/2]]
    ((1/2 : NNRat) : WithTop NNRat) ((1/2 : NNRat) : WithTop NNRat)
    (by decide) (by with_unfolding_all decide) (by with_unfolding_all decide)
    (by with_unfolding_all decide) (by with_unfolding_all decide)
    (by with_unfolding_all decide) (by with_unfolding_all decide)
  exact ⟨h1, h2⟩

/-- Claim C10: with `m = 0` goods (every row of both matrices empty) and any
`n ≥ 1` agents, the call returns `true` without error: every pairwise ratio
defaults to `+∞`, every edge weight is `+∞`, and no negative cycle can be
found. -/
theorem c10_theorem (n : ℕ) (h : 1 ≤ n) :
    is_pareto_efficient (List.replicate n []) (List.replicate n []) = some true := by
  have hlen : (List.replicate n ([] : List NNRat)).length = n := List.length_replicate ..
  have hcalc : ∀ p : ℕ × ℕ,
      calculate_min_ratio p.1 p.2 (List.replicate n []) (List.replicate n []) = some ⊤ :=
    fun p => calc_replicate_top n p.1 p.2
  have hbuild : build_graph (List.replicate n []) (List.replicate n []) =
      some ⟨n, (edgePairs n).map (fun p => (p.1, p.2, ⊤))⟩ := by
    rw [build_graph, hlen, buildEdges_all_top hcalc]
  have htop : ∀ e ∈ (edgePairs n).map (fun p => (p.1, p.2, (⊤ : WithTop NNRat))), e.2.2 = ⊤ := by
    intro e he
    obtain ⟨p, _, rfl⟩ := List.mem_map.mp he
    rfl
  have hhas : has_negative_cycle ⟨n, (edgePairs n).map (fun p => (p.1, p.2, ⊤))⟩ = false :=
    has_negative_cycle_all_top htop
  simp only [is_pareto_efficient, hbuild, hhas]
  rfl

/-- Witness for claim C10 at `n = 2`. -/
theorem c10_witness : is_pareto_efficient [[], []] [[], []] = some true := by
  exact c10_theorem 2 (by decide)
